import Mathlib

set_option maxHeartbeats 1600000

/- Verification of the B-Rep mesh kernel's vertex incidence machinery
(`brep_vertex_edge_list`, `brep_vertex_container`) as implemented in
`src/engine/geom/brep/brep-vertex.cpp`, together with the mesh-level
cascading operations those functions participate in.  Edge and vertex
records are identified by natural-number ids; a raw pointer is modelled
as an `Option Nat` (with `none` for a null pointer). -/

/-- One B-Rep edge record: endpoint vertex ids `v0`/`v1` (the source's
`m_vertices[0]`/`m_vertices[1]`) and, for each endpoint side, next/previous
references into that endpoint's circular incidence list (the source's
`m_vertex_next[2]` and `m_vertex_previous[2]`), plus the container index
`m_index`.  References hold edge ids; `none` models a null pointer. -/
structure BrepEdge where
  v0 : Nat
  v1 : Nat
  next0 : Option Nat := none
  next1 : Option Nat := none
  prev0 : Option Nat := none
  prev1 : Option Nat := none
  m_index : Nat := 0
deriving DecidableEq, Repr

/-- Endpoint vertex of an edge on side `i` (`false` = side 0, `true` = side 1). -/
def BrepEdge.vertexAt (e : BrepEdge) (i : Bool) : Nat := cond i e.v1 e.v0

/-- The `m_vertex_next[i]` slot of an edge. -/
def BrepEdge.vnext (e : BrepEdge) (i : Bool) : Option Nat := cond i e.next1 e.next0

/-- The `m_vertex_previous[i]` slot of an edge. -/
def BrepEdge.vprev (e : BrepEdge) (i : Bool) : Option Nat := cond i e.prev1 e.prev0

/-- Write the `m_vertex_next[i]` slot of an edge. -/
def BrepEdge.setVnext (e : BrepEdge) (i : Bool) (x : Option Nat) : BrepEdge :=
  cond i { e with next1 := x } { e with next0 := x }

/-- Write the `m_vertex_previous[i]` slot of an edge. -/
def BrepEdge.setVprev (e : BrepEdge) (i : Bool) (x : Option Nat) : BrepEdge :=
  cond i { e with prev1 := x } { e with prev0 := x }

/-- Side of edge `e` relevant to vertex `v`.  The source computes the index
as `edge->m_vertices[1] == m_vertex` (side 1 when endpoint 1 is the owning
vertex, side 0 otherwise); both `push_back` and `remove` use exactly this
test. -/
def sideOf (e : BrepEdge) (v : Nat) : Bool := e.v1 == v

/-- The per-vertex circular incidence list header `brep_vertex_edge_list`:
the owning vertex (`m_vertex`), the head edge reference (`m_head`) and the
size counter (`m_size`). -/
structure BrepVertexEdgeList where
  m_vertex : Nat
  m_head : Option Nat
  m_size : Nat
deriving DecidableEq, Repr

/-- The storage of edge records, indexed by edge id. -/
abbrev EdgeStore := Nat → BrepEdge

/-- Overwrite the record of edge `x` in a store. -/
def upd (E : EdgeStore) (x : Nat) (r : BrepEdge) : EdgeStore :=
  fun k => if k = x then r else E k

/-- Modelled from the spec: `brep_vertex_edge_list::empty()` lives in the
header `brep-vertex.hpp`, which is not among the sources; the spec lists it
as a trivial query next to the size counter, so it is true exactly when the
size counter is zero. -/
def BrepVertexEdgeList.isEmptyList (L : BrepVertexEdgeList) : Bool := L.m_size == 0

/-- `brep_vertex_edge_list::push_back`, transcribed statement by statement
from `brep-vertex.cpp`.  The two fall-through branches returning `(E, L)`
correspond to null-pointer dereferences in the C++ (head null while the size
is nonzero, or a head with a null previous link), which cannot occur on a
well-formed list. -/
def push_back (E : EdgeStore) (L : BrepVertexEdgeList) (eid : Nat) :
    EdgeStore × BrepVertexEdgeList :=
  let i := sideOf (E eid) L.m_vertex
  if L.isEmptyList then
    let E1 := upd E eid ((E eid).setVnext i (some eid))
    let E2 := upd E1 eid ((E1 eid).setVprev i (some eid))
    (E2, { L with m_head := some eid, m_size := L.m_size + 1 })
  else
    match L.m_head with
    | none => (E, L)
    | some h =>
      let j := sideOf (E h) L.m_vertex
      let E1 := upd E eid ((E eid).setVnext i (some h))
      match (E1 h).vprev j with
      | none => (E, L)
      | some p =>
        let E2 := upd E1 eid ((E1 eid).setVprev i (some p))
        let E3 := upd E2 p ((E2 p).setVnext (sideOf (E2 p) L.m_vertex) (some eid))
        let E4 := upd E3 h ((E3 h).setVprev j (some eid))
        (E4, { L with m_size := L.m_size + 1 })

/-- `brep_vertex_edge_list::remove`, transcribed statement by statement from
`brep-vertex.cpp`.  The fall-through branch returning `(E, L)` corresponds
to a null-pointer dereference in the C++ (a member edge of a well-formed
list always has non-null next/previous links on the relevant side).  The
C++ decrements a `std::size_t`; the truncated `Nat` subtraction agrees with
it whenever the removed edge is a list member, which forces `m_size ≠ 0`. -/
def remove (E : EdgeStore) (L : BrepVertexEdgeList) (eid : Nat) :
    EdgeStore × BrepVertexEdgeList :=
  let i := sideOf (E eid) L.m_vertex
  match (E eid).vnext i, (E eid).vprev i with
  | some nx, some pv =>
    let E1 := upd E nx ((E nx).setVprev (sideOf (E nx) L.m_vertex) (some pv))
    let E2 := upd E1 pv ((E1 pv).setVnext (sideOf (E1 pv) L.m_vertex) (some nx))
    let L1 := if L.m_head = some eid then { L with m_head := some nx } else L
    (E2, { L1 with m_size := L1.m_size - 1 })
  | _, _ => (E, L)

/-- Successor of edge `a` in the circular incidence list of vertex `v`: the
`m_vertex_next` slot on the side of `a` relevant to `v`. -/
def listNext (E : EdgeStore) (v a : Nat) : Option Nat := (E a).vnext (sideOf (E a) v)

/-- Predecessor of edge `a` in the circular incidence list of vertex `v`. -/
def listPrev (E : EdgeStore) (v a : Nat) : Option Nat := (E a).vprev (sideOf (E a) v)

@[simp] theorem upd_same (E : EdgeStore) (x : Nat) (r : BrepEdge) : upd E x r x = r := by
  simp [upd]

theorem upd_ne (E : EdgeStore) (x : Nat) (r : BrepEdge) {k : Nat} (h : k ≠ x) :
    upd E x r k = E k := by
  simp [upd, h]

@[simp] theorem vnext_setVnext (e : BrepEdge) (i : Bool) (x : Option Nat) :
    (e.setVnext i x).vnext i = x := by
  cases i <;> rfl

@[simp] theorem vprev_setVprev (e : BrepEdge) (i : Bool) (x : Option Nat) :
    (e.setVprev i x).vprev i = x := by
  cases i <;> rfl

theorem vnext_setVnext_ne (e : BrepEdge) {i j : Bool} (x : Option Nat) (h : j ≠ i) :
    (e.setVnext i x).vnext j = e.vnext j := by
  cases i <;> cases j <;> simp_all <;> rfl

theorem vprev_setVprev_ne (e : BrepEdge) {i j : Bool} (x : Option Nat) (h : j ≠ i) :
    (e.setVprev i x).vprev j = e.vprev j := by
  cases i <;> cases j <;> simp_all <;> rfl

@[simp] theorem vnext_setVprev (e : BrepEdge) (i j : Bool) (x : Option Nat) :
    (e.setVprev i x).vnext j = e.vnext j := by
  cases i <;> cases j <;> rfl

@[simp] theorem vprev_setVnext (e : BrepEdge) (i j : Bool) (x : Option Nat) :
    (e.setVnext i x).vprev j = e.vprev j := by
  cases i <;> cases j <;> rfl

@[simp] theorem v0_setVnext (e : BrepEdge) (i : Bool) (x : Option Nat) :
    (e.setVnext i x).v0 = e.v0 := by cases i <;> rfl

@[simp] theorem v1_setVnext (e : BrepEdge) (i : Bool) (x : Option Nat) :
    (e.setVnext i x).v1 = e.v1 := by cases i <;> rfl

@[simp] theorem v0_setVprev (e : BrepEdge) (i : Bool) (x : Option Nat) :
    (e.setVprev i x).v0 = e.v0 := by cases i <;> rfl

@[simp] theorem v1_setVprev (e : BrepEdge) (i : Bool) (x : Option Nat) :
    (e.setVprev i x).v1 = e.v1 := by cases i <;> rfl

@[simp] theorem index_setVnext (e : BrepEdge) (i : Bool) (x : Option Nat) :
    (e.setVnext i x).m_index = e.m_index := by cases i <;> rfl

@[simp] theorem index_setVprev (e : BrepEdge) (i : Bool) (x : Option Nat) :
    (e.setVprev i x).m_index = e.m_index := by cases i <;> rfl

@[simp] theorem sideOf_setVnext (e : BrepEdge) (i : Bool) (x : Option Nat) (v : Nat) :
    sideOf (e.setVnext i x) v = sideOf e v := by
  simp [sideOf]

@[simp] theorem sideOf_setVprev (e : BrepEdge) (i : Bool) (x : Option Nat) (v : Nat) :
    sideOf (e.setVprev i x) v = sideOf e v := by
  simp [sideOf]

theorem setVnext_vnext (e : BrepEdge) (i : Bool) : e.setVnext i (e.vnext i) = e := by
  cases i <;> rfl

theorem setVprev_vprev (e : BrepEdge) (i : Bool) : e.setVprev i (e.vprev i) = e := by
  cases i <;> rfl

theorem setVnext_setVnext (e : BrepEdge) (i : Bool) (x y : Option Nat) :
    (e.setVnext i x).setVnext i y = e.setVnext i y := by
  cases i <;> rfl

theorem setVprev_setVprev (e : BrepEdge) (i : Bool) (x y : Option Nat) :
    (e.setVprev i x).setVprev i y = e.setVprev i y := by
  cases i <;> rfl

/-- Sanity check of the side test: endpoint 1 selects side 1, endpoint 0
selects side 0, and a degenerate edge always selects side 1. -/
theorem sideOf_cases :
    sideOf { v0 := 3, v1 := 5 } 5 = true ∧
    sideOf { v0 := 3, v1 := 5 } 3 = false ∧
    sideOf { v0 := 4, v1 := 4 } 4 = true := by
  decide

/-- Characterization of `remove` on the store and list header, given that the
removed edge has non-null next/previous links on its relevant side (true for
every member of a well-formed list).  States: the predecessor's successor
link becomes the former successor, the successor's predecessor link becomes
the former predecessor, all other edges (and all fields on sides other than
the one relevant to this vertex) are untouched, the head advances to the
former successor exactly when the removed edge was the head, and the size
counter is decremented. -/
theorem remove_spec {E : EdgeStore} {L : BrepVertexEdgeList} {eid nx pv : Nat}
    (hn : listNext E L.m_vertex eid = some nx)
    (hp : listPrev E L.m_vertex eid = some pv) :
    (∀ a, listNext (remove E L eid).1 L.m_vertex a =
        if a = pv then some nx else listNext E L.m_vertex a) ∧
    (∀ a, listPrev (remove E L eid).1 L.m_vertex a =
        if a = nx then some pv else listPrev E L.m_vertex a) ∧
    ((remove E L eid).2 =
      { m_vertex := L.m_vertex,
        m_head := if L.m_head = some eid then some nx else L.m_head,
        m_size := L.m_size - 1 }) ∧
    (∀ x, x ≠ nx → x ≠ pv → (remove E L eid).1 x = E x) ∧
    (∀ x, ((remove E L eid).1 x).v0 = (E x).v0 ∧ ((remove E L eid).1 x).v1 = (E x).v1 ∧
        ((remove E L eid).1 x).m_index = (E x).m_index) ∧
    (∀ x b, b ≠ sideOf (E x) L.m_vertex →
        ((remove E L eid).1 x).vnext b = (E x).vnext b ∧
        ((remove E L eid).1 x).vprev b = (E x).vprev b) := by
  have hn' : (E eid).vnext (sideOf (E eid) L.m_vertex) = some nx := hn
  have hp' : (E eid).vprev (sideOf (E eid) L.m_vertex) = some pv := hp
  unfold remove
  simp only [hn', hp']
  refine ⟨?_, ?_, ?_, ?_, ?_, ?_⟩
  · intro a
    by_cases hap : a = pv <;> by_cases han : a = nx <;> by_cases hpn : pv = nx <;>
      simp_all [listNext, upd]
  · intro a
    by_cases hap : a = pv <;> by_cases han : a = nx <;> by_cases hpn : pv = nx <;>
      simp_all [listPrev, upd]
  · by_cases hhd : L.m_head = some eid <;> simp [hhd]
  · intro x hxn hxp
    simp [upd, hxn, hxp]
  · intro x
    by_cases hxp : x = pv <;> by_cases hxn : x = nx <;> by_cases hpn : pv = nx <;>
      simp_all [upd]
  · intro x b hb
    by_cases hxp : x = pv <;> by_cases hxn : x = nx <;> by_cases hpn : pv = nx <;>
      simp_all [upd, vnext_setVnext_ne, vprev_setVprev_ne]

/-- Characterization of `push_back` on an empty list: the new edge becomes
its own successor and predecessor on its relevant side and becomes the head,
the size counter is incremented, and nothing else changes. -/
theorem push_back_spec_empty {E : EdgeStore} {L : BrepVertexEdgeList} {eid : Nat}
    (hsz : L.m_size = 0) :
    (∀ a, listNext (push_back E L eid).1 L.m_vertex a =
        if a = eid then some eid else listNext E L.m_vertex a) ∧
    (∀ a, listPrev (push_back E L eid).1 L.m_vertex a =
        if a = eid then some eid else listPrev E L.m_vertex a) ∧
    ((push_back E L eid).2 = { L with m_head := some eid, m_size := L.m_size + 1 }) ∧
    (∀ x, x ≠ eid → (push_back E L eid).1 x = E x) ∧
    (∀ x, ((push_back E L eid).1 x).v0 = (E x).v0 ∧
        ((push_back E L eid).1 x).v1 = (E x).v1 ∧
        ((push_back E L eid).1 x).m_index = (E x).m_index) ∧
    (∀ x b, b ≠ sideOf (E x) L.m_vertex →
        ((push_back E L eid).1 x).vnext b = (E x).vnext b ∧
        ((push_back E L eid).1 x).vprev b = (E x).vprev b) := by
  have hEmp : L.isEmptyList = true := by
    simp [BrepVertexEdgeList.isEmptyList, hsz]
  unfold push_back
  simp only [hEmp, if_true]
  refine ⟨?_, ?_, ?_, ?_, ?_, ?_⟩
  · intro a
    by_cases ha : a = eid <;> simp_all [listNext, upd]
  · intro a
    by_cases ha : a = eid <;> simp_all [listPrev, upd]
  · simp
  · intro x hx
    simp [upd, hx]
  · intro x
    by_cases hx : x = eid <;> simp_all [upd]
  · intro x b hb
    by_cases hx : x = eid <;>
      simp_all [upd, vnext_setVnext_ne, vprev_setVprev_ne]

/-- Characterization of `push_back` on a non-empty list with head `h` whose
predecessor (on the head's relevant side) is `p`, for a new edge distinct
from both: the new edge is spliced in immediately before the head (its
successor is the head, its predecessor is `p`, `p`'s successor link becomes
the new edge, the head's predecessor link becomes the new edge), the head is
unchanged, the size counter is incremented, and nothing else changes. -/
theorem push_back_spec_nonempty {E : EdgeStore} {L : BrepVertexEdgeList} {eid h p : Nat}
    (hsz : L.m_size ≠ 0) (hh : L.m_head = some h)
    (hp : listPrev E L.m_vertex h = some p)
    (heh : eid ≠ h) (hep : eid ≠ p) :
    (∀ a, listNext (push_back E L eid).1 L.m_vertex a =
        if a = eid then some h else
        if a = p then some eid else listNext E L.m_vertex a) ∧
    (∀ a, listPrev (push_back E L eid).1 L.m_vertex a =
        if a = eid then some p else
        if a = h then some eid else listPrev E L.m_vertex a) ∧
    ((push_back E L eid).2 = { L with m_size := L.m_size + 1 }) ∧
    (∀ x, x ≠ eid → x ≠ p → x ≠ h → (push_back E L eid).1 x = E x) ∧
    (∀ x, ((push_back E L eid).1 x).v0 = (E x).v0 ∧
        ((push_back E L eid).1 x).v1 = (E x).v1 ∧
        ((push_back E L eid).1 x).m_index = (E x).m_index) ∧
    (∀ x b, b ≠ sideOf (E x) L.m_vertex →
        ((push_back E L eid).1 x).vnext b = (E x).vnext b ∧
        ((push_back E L eid).1 x).vprev b = (E x).vprev b) := by
  have hEmp : L.isEmptyList = false := by
    simp [BrepVertexEdgeList.isEmptyList, hsz]
  have hE1h : upd E eid ((E eid).setVnext (sideOf (E eid) L.m_vertex) (some h)) h = E h :=
    upd_ne _ _ _ (Ne.symm heh)
  have hp' : (E h).vprev (sideOf (E h) L.m_vertex) = some p := hp
  unfold push_back
  simp only [hEmp, Bool.false_eq_true, if_false, hh, hE1h, hp']
  refine ⟨?_, ?_, ?_, ?_, ?_, ?_⟩
  · intro a
    by_cases hae : a = eid <;> by_cases hap : a = p <;> by_cases hah : a = h <;>
      by_cases hph : p = h <;> simp_all [listNext, upd]
  · intro a
    by_cases hae : a = eid <;> by_cases hap : a = p <;> by_cases hah : a = h <;>
      by_cases hph : p = h <;> simp_all [listPrev, upd]
  · simp
  · intro x hxe hxp hxh
    simp [upd, hxe, hxp, hxh]
  · intro x
    by_cases hxe : x = eid <;> by_cases hxp : x = p <;> by_cases hxh : x = h <;>
      by_cases hph : p = h <;> simp_all [upd]
  · intro x b hb
    by_cases hxe : x = eid <;> by_cases hxp : x = p <;> by_cases hxh : x = h <;>
      by_cases hph : p = h <;>
      simp_all [upd, vnext_setVnext_ne, vprev_setVprev_ne]

/-- One adjacency step of the circular incidence list of vertex `v`: edge `b`
follows edge `a`, with mutually consistent next/previous links. -/
def stepRel (E : EdgeStore) (v a b : Nat) : Prop :=
  listNext E v a = some b ∧ listPrev E v b = some a

instance (E : EdgeStore) (v a b : Nat) : Decidable (stepRel E v a b) :=
  inferInstanceAs (Decidable (listNext E v a = some b ∧ listPrev E v b = some a))

/-- `Realizes E L es`: the list header `L` together with the link slots in
store `E` represents the circular incidence list whose members, starting at
the head and following successor links, are exactly `es`.  When `es` is
empty nothing is required of the head reference: the source's `remove`
leaves a stale head behind when the list becomes empty, and the source's
`empty()` consults only the size counter. -/
def Realizes (E : EdgeStore) (L : BrepVertexEdgeList) (es : List Nat) : Prop :=
  es.Nodup ∧ L.m_size = es.length ∧ (es ≠ [] → L.m_head = es.head?) ∧
  List.Chain' (stepRel E L.m_vertex) es ∧
  (∀ a b, es.getLast? = some a → es.head? = some b → stepRel E L.m_vertex a b)

theorem head?_eq_headD {l : List Nat} (h : l ≠ []) : l.head? = some (l.headD 0) := by
  cases l with
  | nil => exact absurd rfl h
  | cons a t => rfl

theorem getLast?_eq_getLastD : ∀ {l : List Nat}, l ≠ [] → l.getLast? = some (l.getLastD 0)
  | [a], _ => rfl
  | a :: b :: t, _ => by
    rw [List.getLast?_cons_cons, @getLast?_eq_getLastD (b :: t) (by simp)]
    rfl

theorem headD_mem {l : List Nat} (h : l ≠ []) : l.headD 0 ∈ l := by
  cases l with
  | nil => exact absurd rfl h
  | cons a t => simp

theorem getLastD_eq_getLast {l : List Nat} (h : l ≠ []) : l.getLastD 0 = l.getLast h := by
  have h1 := getLast?_eq_getLastD h
  rw [List.getLast?_eq_getLast_of_ne_nil h] at h1
  exact (Option.some_inj.mp h1).symm

theorem getLastD_mem {l : List Nat} (h : l ≠ []) : l.getLastD 0 ∈ l := by
  rw [getLastD_eq_getLast h]
  exact List.getLast_mem h

theorem getLastD_not_mem_dropLast {l : List Nat} (hnd : l.Nodup) (h : l ≠ []) :
    l.getLastD 0 ∉ l.dropLast := by
  have hsplit := List.dropLast_append_getLast h
  rw [getLastD_eq_getLast h]
  intro hmem
  rw [← hsplit] at hnd
  rcases List.nodup_append.mp hnd with ⟨-, -, hdisj⟩
  exact hdisj hmem (by simp)

theorem headD_not_mem_tail {l : List Nat} (hnd : l.Nodup) (h : l ≠ []) :
    l.headD 0 ∉ l.tail := by
  cases l with
  | nil => exact absurd rfl h
  | cons a t =>
    simp only [List.headD_cons, List.tail_cons]
    exact (List.nodup_cons.mp hnd).1

theorem getLast?_append_singleton (l : List Nat) (a : Nat) :
    (l ++ [a]).getLast? = some a := by
  induction l with
  | nil => rfl
  | cons b t ih =>
    cases t with
    | nil => rfl
    | cons c u => simpa using ih

/-- Transport of a chain of list links along a store change that preserves
the successor links of all but the last element and the predecessor links of
all but the first. -/
theorem chain'_transport (E E2 : EdgeStore) (v : Nat) :
    ∀ (l : List Nat),
      (∀ a ∈ l.dropLast, listNext E2 v a = listNext E v a) →
      (∀ a ∈ l.tail, listPrev E2 v a = listPrev E v a) →
      List.Chain' (stepRel E v) l → List.Chain' (stepRel E2 v) l
  | [], _, _, _ => List.chain'_nil
  | [a], _, _, _ => List.chain'_singleton a
  | a :: b :: t, hn, hp, hc => by
    rw [List.chain'_cons] at hc ⊢
    refine ⟨⟨?_, ?_⟩, ?_⟩
    · rw [hn a (by rw [List.dropLast_cons₂]; simp)]
      exact hc.1.1
    · rw [hp b (by simp)]
      exact hc.1.2
    · exact chain'_transport E E2 v (b :: t)
        (fun x hx => hn x (by rw [List.dropLast_cons₂]; exact List.mem_cons_of_mem a hx))
        (fun x hx => hp x (List.mem_cons_of_mem b hx))
        hc.2

/-- `push_back` of a fresh edge appends it to the realized cyclic list (the
source splices the new edge in immediately before the head, i.e. at the end
of the cycle as enumerated from the head). -/
theorem realizes_push_back {E : EdgeStore} {L : BrepVertexEdgeList} {es : List Nat} {eid : Nat}
    (hr : Realizes E L es) (hnm : eid ∉ es) :
    Realizes (push_back E L eid).1 (push_back E L eid).2 (es ++ [eid]) := by
  obtain ⟨hnd, hsz, hhd, hch, hwrap⟩ := hr
  by_cases hes : es = []
  · subst hes
    obtain ⟨pa, pb, pc, -, -, -⟩ :=
      @push_back_spec_empty E L eid (by simpa using hsz)
    refine ⟨by simp, ?_, ?_, ?_, ?_⟩
    · rw [pc]
      simp_all
    · intro _
      rw [pc]
      rfl
    · simp
    · intro a b ha hb
      simp only [List.nil_append] at ha hb
      rw [show ([eid] : List Nat).getLast? = some eid from rfl] at ha
      rw [show ([eid] : List Nat).head? = some eid from rfl] at hb
      obtain rfl : eid = a := by simpa using ha
      obtain rfl : eid = b := by simpa using hb
      constructor
      · simp only [pc]
        rw [pa]
        simp
      · simp only [pc]
        rw [pb]
        simp
  · have hh : L.m_head = some (es.headD 0) := by rw [hhd hes, head?_eq_headD hes]
    have hpstep : stepRel E L.m_vertex (es.getLastD 0) (es.headD 0) :=
      hwrap _ _ (getLast?_eq_getLastD hes) (head?_eq_headD hes)
    have hp : listPrev E L.m_vertex (es.headD 0) = some (es.getLastD 0) := hpstep.2
    have heh : eid ≠ es.headD 0 := fun h => hnm (h ▸ headD_mem hes)
    have hep : eid ≠ es.getLastD 0 := fun h => hnm (h ▸ getLastD_mem hes)
    have hsz0 : L.m_size ≠ 0 := by
      rw [hsz]
      exact (List.length_pos.mpr hes).ne'
    obtain ⟨pa, pb, pc, -, -, -⟩ := push_back_spec_nonempty hsz0 hh hp heh hep
    refine ⟨?_, ?_, ?_, ?_, ?_⟩
    · simp [List.nodup_append, hnd, hnm]
    · rw [pc]
      simpa using hsz
    · intro _
      rw [pc]
      cases es with
      | nil => exact absurd rfl hes
      | cons a t => simpa using hh
    · simp only [pc]
      rw [List.chain'_append]
      refine ⟨?_, List.chain'_singleton eid, ?_⟩
      · refine chain'_transport E _ L.m_vertex es ?_ ?_ hch
        · intro a ha
          have h1 : a ≠ eid := fun h => hnm (h ▸ (List.dropLast_sublist es).subset ha)
          have h2 : a ≠ es.getLastD 0 := fun h => getLastD_not_mem_dropLast hnd hes (h ▸ ha)
          rw [pa, if_neg h1, if_neg h2]
        · intro a ha
          have h1 : a ≠ eid := fun h => hnm (h ▸ (List.tail_sublist es).subset ha)
          have h2 : a ≠ es.headD 0 := fun h => headD_not_mem_tail hnd hes (h ▸ ha)
          rw [pb, if_neg h1, if_neg h2]
      · intro x hx y hy
        rw [Option.mem_def, getLast?_eq_getLastD hes] at hx
        obtain rfl : es.getLastD 0 = x := by simpa using hx
        rw [Option.mem_def, show ([eid] : List Nat).head? = some eid from rfl] at hy
        obtain rfl : eid = y := by simpa using hy
        constructor
        · rw [pa, if_neg (Ne.symm hep), if_pos rfl]
        · rw [pb, if_pos rfl]
    · intro a b ha hb
      simp only [pc]
      rw [getLast?_append_singleton] at ha
      obtain rfl : eid = a := by simpa using ha
      have hb2 : es.head? = some b := by
        cases es with
        | nil => exact absurd rfl hes
        | cons c t => simpa using hb
      rw [head?_eq_headD hes] at hb2
      obtain rfl : es.headD 0 = b := by simpa using hb2
      constructor
      · rw [pa, if_pos rfl]
      · rw [pb, if_neg (Ne.symm heh), if_pos rfl]

/-- `remove` of a member edge deletes it from the realized cyclic list.  The
resulting abstract list is `es.erase eid`: when the removed edge was the
head, the head advances to its former successor, which is exactly the next
entry of the erased list (and the erased list's enumeration starts there). -/
theorem realizes_remove {E : EdgeStore} {L : BrepVertexEdgeList} {es : List Nat} {eid : Nat}
    (hr : Realizes E L es) (hm : eid ∈ es) :
    Realizes (remove E L eid).1 (remove E L eid).2 (es.erase eid) := by
  obtain ⟨hnd, hsz, hhd, hch, hwrap⟩ := hr
  obtain ⟨xs, ys, rfl⟩ := List.append_of_mem hm
  obtain ⟨ndxs, ndcons, hdisj⟩ := List.nodup_append.mp hnd
  have ndys : ys.Nodup := (List.nodup_cons.mp ndcons).2
  have heidys : eid ∉ ys := (List.nodup_cons.mp ndcons).1
  have heidxs : eid ∉ xs := fun h => hdisj h (by simp)
  have herase : (xs ++ eid :: ys).erase eid = xs ++ ys := by
    rw [List.erase_append_right _ heidxs, List.erase_cons_head]
  rw [herase]
  obtain ⟨chxs, chcons, hlink⟩ := List.chain'_append.mp hch
  cases xs with
  | nil =>
    cases ys with
    | nil =>
      have hstep : stepRel E L.m_vertex eid eid := hwrap eid eid (by simp) (by simp)
      obtain ⟨-, -, rc, -, -, -⟩ := remove_spec hstep.1 hstep.2
      refine ⟨by simp, ?_, by simp, by simp, by simp⟩
      rw [rc]
      simp only [List.nil_append, List.length_cons, List.length_nil] at hsz
      simp [hsz]
    | cons b ys2 =>
      simp only [List.nil_append] at hsz hch ⊢
      have hhead : L.m_head = some eid := by
        have := hhd (by simp)
        simpa using this
      have hnx : listNext E L.m_vertex eid = some b := (List.chain'_cons.mp hch).1.1
      have hgel : (eid :: b :: ys2).getLast? = some ((b :: ys2).getLastD 0) := by
        rw [List.getLast?_cons_cons]
        exact getLast?_eq_getLastD (List.cons_ne_nil _ _)
      have hstep : stepRel E L.m_vertex ((b :: ys2).getLastD 0) eid :=
        hwrap _ _ (by simpa using hgel) (by simp)
      obtain ⟨ra, rb, rc, -, -, -⟩ := remove_spec hnx hstep.2
      refine ⟨ndys, ?_, ?_, ?_, ?_⟩
      · rw [rc]
        simp only [List.length_cons] at hsz ⊢
        omega
      · intro _
        rw [rc]
        simp [hhead]
      · simp only [rc]
        refine chain'_transport E _ L.m_vertex (b :: ys2) ?_ ?_ hch.tail
        · intro a ha
          have h2 : a ≠ (b :: ys2).getLastD 0 := fun h =>
            getLastD_not_mem_dropLast ndys (List.cons_ne_nil _ _) (h ▸ ha)
          rw [ra, if_neg h2]
        · intro a ha
          have h2 : a ≠ b := fun h =>
            headD_not_mem_tail ndys (List.cons_ne_nil _ _) (h ▸ ha)
          rw [rb, if_neg h2]
      · intro a2 c2 ha2 hc2
        simp only [rc]
        rw [getLast?_eq_getLastD (List.cons_ne_nil _ _)] at ha2
        obtain rfl : (b :: ys2).getLastD 0 = a2 := by simpa using ha2
        obtain rfl : b = c2 := by simpa using hc2
        constructor
        · rw [ra, if_pos rfl]
        · rw [rb, if_pos rfl]
  | cons x0 xs2 =>
    have hx0eid : x0 ≠ eid := fun h => heidxs (h ▸ List.mem_cons_self x0 xs2)
    have hhead : L.m_head = some x0 := by
      have := hhd (by simp)
      simpa using this
    have hglx : (x0 :: xs2).getLast? = some ((x0 :: xs2).getLastD 0) :=
      getLast?_eq_getLastD (List.cons_ne_nil _ _)
    have hglmem : (x0 :: xs2).getLastD 0 ∈ x0 :: xs2 :=
      getLastD_mem (List.cons_ne_nil _ _)
    cases ys with
    | nil =>
      have hstep : stepRel E L.m_vertex eid x0 :=
        hwrap eid x0 (by simpa using getLast?_append_singleton (x0 :: xs2) eid) (by simp)
      have hpstep : stepRel E L.m_vertex ((x0 :: xs2).getLastD 0) eid :=
        hlink _ hglx _ rfl
      obtain ⟨ra, rb, rc, -, -, -⟩ := remove_spec hstep.1 hpstep.2
      simp only [List.append_nil]
      refine ⟨ndxs, ?_, ?_, ?_, ?_⟩
      · rw [rc]
        simp only [List.length_append, List.length_cons, List.length_nil] at hsz ⊢
        omega
      · intro _
        rw [rc]
        rw [if_neg (by simp [hhead, hx0eid])]
        simpa using hhead
      · simp only [rc]
        refine chain'_transport E _ L.m_vertex (x0 :: xs2) ?_ ?_ chxs
        · intro a ha
          have h2 : a ≠ (x0 :: xs2).getLastD 0 := fun h =>
            getLastD_not_mem_dropLast ndxs (List.cons_ne_nil _ _) (h ▸ ha)
          rw [ra, if_neg h2]
        · intro a ha
          have h2 : a ≠ x0 := fun h =>
            headD_not_mem_tail ndxs (List.cons_ne_nil _ _) (h ▸ ha)
          rw [rb, if_neg h2]
      · intro a2 c2 ha2 hc2
        simp only [rc]
        rw [getLast?_eq_getLastD (List.cons_ne_nil _ _)] at ha2
        obtain rfl : (x0 :: xs2).getLastD 0 = a2 := by simpa using ha2
        obtain rfl : x0 = c2 := by simpa using hc2
        constructor
        · rw [ra, if_pos rfl]
        · rw [rb, if_pos rfl]
    | cons b ys2 =>
      have hbys : b ∈ eid :: b :: ys2 := by simp
      have hnx : listNext E L.m_vertex eid = some b := (List.chain'_cons.mp chcons).1.1
      have hpstep : stepRel E L.m_vertex ((x0 :: xs2).getLastD 0) eid :=
        hlink _ hglx _ rfl
      obtain ⟨ra, rb, rc, -, -, -⟩ := remove_spec hnx hpstep.2
      have hx0b : x0 ≠ b := fun h => hdisj (List.mem_cons_self x0 xs2) (h ▸ hbys)
      refine ⟨?_, ?_, ?_, ?_, ?_⟩
      · refine List.nodup_append.mpr ⟨ndxs, ndys, ?_⟩
        intro a ha hb
        exact hdisj ha (List.mem_cons_of_mem _ hb)
      · rw [rc]
        simp only [List.length_append, List.length_cons] at hsz ⊢
        omega
      · intro _
        rw [rc]
        rw [if_neg (by simp [hhead, hx0eid])]
        simpa using hhead
      · simp only [rc]
        rw [List.chain'_append]
        refine ⟨?_, ?_, ?_⟩
        · refine chain'_transport E _ L.m_vertex (x0 :: xs2) ?_ ?_ chxs
          · intro a ha
            have h2 : a ≠ (x0 :: xs2).getLastD 0 := fun h =>
              getLastD_not_mem_dropLast ndxs (List.cons_ne_nil _ _) (h ▸ ha)
            rw [ra, if_neg h2]
          · intro a ha
            have h2 : a ≠ b := fun h =>
              hdisj ((List.tail_sublist (x0 :: xs2)).subset ha) (h ▸ hbys)
            rw [rb, if_neg h2]
        · refine chain'_transport E _ L.m_vertex (b :: ys2) ?_ ?_ chcons.tail
          · intro a ha
            have h2 : a ≠ (x0 :: xs2).getLastD 0 := fun h =>
              hdisj (h ▸ hglmem)
                (List.mem_cons_of_mem _ ((List.dropLast_sublist (b :: ys2)).subset ha))
            rw [ra, if_neg h2]
          · intro a ha
            have h2 : a ≠ b := fun h =>
              headD_not_mem_tail ndys (List.cons_ne_nil _ _) (h ▸ ha)
            rw [rb, if_neg h2]
        · intro a2 ha2 c2 hc2
          rw [Option.mem_def, getLast?_eq_getLastD (List.cons_ne_nil _ _)] at ha2
          obtain rfl : (x0 :: xs2).getLastD 0 = a2 := by simpa using ha2
          obtain rfl : b = c2 := by simpa using hc2
          constructor
          · rw [ra, if_pos rfl]
          · rw [rb, if_pos rfl]
      · intro a2 c2 ha2 hc2
        simp only [rc]
        rw [List.getLast?_append_of_ne_nil (x0 :: xs2) (List.cons_ne_nil b ys2),
          getLast?_eq_getLastD (List.cons_ne_nil _ _)] at ha2
        obtain rfl : (b :: ys2).getLastD 0 = a2 := by simpa using ha2
        obtain rfl : x0 = c2 := by simpa using hc2
        have hylmem : (b :: ys2).getLastD 0 ∈ b :: ys2 :=
          getLastD_mem (List.cons_ne_nil _ _)
        have hstep : stepRel E L.m_vertex ((b :: ys2).getLastD 0) x0 := by
          refine hwrap _ _ ?_ rfl
          rw [List.getLast?_append_cons, List.getLast?_cons_cons]
          exact getLast?_eq_getLastD (List.cons_ne_nil _ _)
        have hylgl : (b :: ys2).getLastD 0 ≠ (x0 :: xs2).getLastD 0 := fun h =>
          hdisj (h ▸ hglmem) (List.mem_cons_of_mem _ hylmem)
        constructor
        · rw [ra, if_neg hylgl]
          exact hstep.1
        · rw [rb, if_neg hx0b]
          exact hstep.2

/-- Iterate the successor link of vertex `v`'s incidence list a given number
of steps from an optional starting edge (`none` propagates, modelling a null
pointer dereference that a well-formed walk never performs). -/
def walkSteps (E : EdgeStore) (v : Nat) : Nat → Option Nat → Option Nat
  | 0, s => s
  | n + 1, some a => walkSteps E v n (listNext E v a)
  | _ + 1, none => none

/-- The edges visited by walking `n` successor steps from a starting edge
(the starting edge first). -/
def visitedEdges (E : EdgeStore) (v : Nat) : Nat → Option Nat → List Nat
  | 0, _ => []
  | n + 1, some a => a :: visitedEdges E v n (listNext E v a)
  | _ + 1, none => []

theorem walkSteps_none (E : EdgeStore) (v : Nat) (n : Nat) :
    walkSteps E v n none = none := by
  cases n <;> rfl

theorem walkSteps_add (E : EdgeStore) (v : Nat) (m n : Nat) :
    ∀ s, walkSteps E v (m + n) s = walkSteps E v n (walkSteps E v m s) := by
  induction m with
  | zero =>
    intro s
    rw [Nat.zero_add]
    rfl
  | succ k ih =>
    intro s
    cases s with
    | none => rw [walkSteps_none, walkSteps_none, walkSteps_none]
    | some a =>
      rw [Nat.succ_add]
      show walkSteps E v (k + n) (listNext E v a) = _
      rw [ih]
      rfl

theorem visitedEdges_of_chain (E : EdgeStore) (v : Nat) :
    ∀ (l : List Nat) (a : Nat), List.Chain' (stepRel E v) (a :: l) →
      visitedEdges E v (l.length + 1) (some a) = a :: l
  | [], a, _ => rfl
  | b :: t, a, hc => by
    rw [List.chain'_cons] at hc
    show a :: visitedEdges E v (t.length + 1) (listNext E v a) = a :: b :: t
    rw [hc.1.1, visitedEdges_of_chain E v t b hc.2]

theorem walkSteps_of_chain (E : EdgeStore) (v : Nat) :
    ∀ (l : List Nat) (a : Nat), List.Chain' (stepRel E v) (a :: l) →
      walkSteps E v l.length (some a) = some ((a :: l).getLast (List.cons_ne_nil a l))
  | [], a, _ => rfl
  | b :: t, a, hc => by
    rw [List.chain'_cons] at hc
    show walkSteps E v t.length (listNext E v a) = _
    rw [hc.1.1, walkSteps_of_chain E v t b hc.2,
      List.getLast_cons (List.cons_ne_nil b t)]

/-- From a realized non-empty list: the head is set, walking exactly `size`
steps from the head returns to the head, and the visited edges are exactly
the realized members (hence pairwise distinct and `size` many). -/
theorem realizes_walk {E : EdgeStore} {L : BrepVertexEdgeList} {es : List Nat}
    (hr : Realizes E L es) (hne : es ≠ []) :
    L.m_head = some (es.headD 0) ∧
    walkSteps E L.m_vertex es.length (some (es.headD 0)) = some (es.headD 0) ∧
    visitedEdges E L.m_vertex es.length (some (es.headD 0)) = es := by
  obtain ⟨hnd, hsz, hhd, hch, hwrap⟩ := hr
  cases es with
  | nil => exact absurd rfl hne
  | cons a t =>
    have hwrapstep : stepRel E L.m_vertex ((a :: t).getLast (List.cons_ne_nil a t)) a := by
      refine hwrap _ _ ?_ rfl
      exact List.getLast?_eq_getLast_of_ne_nil (List.cons_ne_nil a t)
    refine ⟨by rw [hhd hne]; rfl, ?_, ?_⟩
    · show walkSteps E L.m_vertex (t.length + 1) (some a) = some a
      rw [walkSteps_add E L.m_vertex t.length 1 (some a),
        walkSteps_of_chain E L.m_vertex t a hch]
      show walkSteps E L.m_vertex 0
        (listNext E L.m_vertex ((a :: t).getLast (List.cons_ne_nil a t))) = some a
      rw [hwrapstep.1]
      rfl
    · exact visitedEdges_of_chain E L.m_vertex t a hch

/-- Transport of `Realizes` along a store change that preserves both link
slots (on this vertex's side) of every member edge. -/
theorem realizes_agree {E E2 : EdgeStore} {L : BrepVertexEdgeList} {es : List Nat}
    (hagree : ∀ a ∈ es, listNext E2 L.m_vertex a = listNext E L.m_vertex a ∧
        listPrev E2 L.m_vertex a = listPrev E L.m_vertex a)
    (hr : Realizes E L es) : Realizes E2 L es := by
  obtain ⟨hnd, hsz, hhd, hch, hwrap⟩ := hr
  refine ⟨hnd, hsz, hhd, ?_, ?_⟩
  · exact chain'_transport E E2 L.m_vertex es
      (fun a ha => (hagree a ((List.dropLast_sublist es).subset ha)).1)
      (fun a ha => (hagree a ((List.tail_sublist es).subset ha)).2)
      hch
  · intro a b ha hb
    have hmema : a ∈ es := by
      obtain ⟨hne2, rfl⟩ := List.mem_getLast?_eq_getLast ha
      exact List.getLast_mem hne2
    have hmemb : b ∈ es := by
      cases es with
      | nil => simp at hb
      | cons c t =>
        obtain rfl : c = b := by simpa using hb
        exact List.mem_cons_self c t
    have h1 := hwrap a b ha hb
    exact ⟨(hagree a hmema).1.trans h1.1, (hagree b hmemb).2.trans h1.2⟩

/-- Every member of a realized list has a member successor with mutually
consistent links. -/
theorem realizes_next_mem {E : EdgeStore} {L : BrepVertexEdgeList} {es : List Nat} {a : Nat}
    (hr : Realizes E L es) (ha : a ∈ es) :
    ∃ b, listNext E L.m_vertex a = some b ∧ b ∈ es ∧ listPrev E L.m_vertex b = some a := by
  obtain ⟨hnd, hsz, hhd, hch, hwrap⟩ := hr
  obtain ⟨xs, ys, rfl⟩ := List.append_of_mem ha
  obtain ⟨chxs, chcons, hlink⟩ := List.chain'_append.mp hch
  cases ys with
  | nil =>
    have hstep := hwrap ((xs ++ [a]).getLastD 0) ((xs ++ [a]).headD 0)
      (getLast?_eq_getLastD (by simp)) (head?_eq_headD (by simp))
    have hgl : (xs ++ [a]).getLastD 0 = a := by
      have h1 := @getLast?_eq_getLastD (xs ++ [a]) (by simp)
      rw [getLast?_append_singleton] at h1
      exact (Option.some_inj.mp h1).symm
    rw [hgl] at hstep
    exact ⟨(xs ++ [a]).headD 0, hstep.1, headD_mem (by simp), hstep.2⟩
  | cons c ys2 =>
    have hstep : stepRel E L.m_vertex a c := (List.chain'_cons.mp chcons).1
    exact ⟨c, hstep.1, by simp, hstep.2⟩

/-- Every member of a realized list has a member predecessor with mutually
consistent links. -/
theorem realizes_prev_mem {E : EdgeStore} {L : BrepVertexEdgeList} {es : List Nat} {a : Nat}
    (hr : Realizes E L es) (ha : a ∈ es) :
    ∃ b, listPrev E L.m_vertex a = some b ∧ b ∈ es ∧ listNext E L.m_vertex b = some a := by
  obtain ⟨hnd, hsz, hhd, hch, hwrap⟩ := hr
  obtain ⟨xs, ys, rfl⟩ := List.append_of_mem ha
  obtain ⟨chxs, chcons, hlink⟩ := List.chain'_append.mp hch
  cases xs with
  | nil =>
    have hstep := hwrap ((a :: ys).getLastD 0) a
      (by simpa using @getLast?_eq_getLastD (a :: ys) (List.cons_ne_nil a ys)) (by simp)
    exact ⟨(a :: ys).getLastD 0, hstep.2,
      by simpa using getLastD_mem (List.cons_ne_nil a ys), hstep.1⟩
  | cons z zs =>
    have hstep := hlink ((z :: zs).getLastD 0)
      (getLast?_eq_getLastD (List.cons_ne_nil z zs)) a rfl
    exact ⟨(z :: zs).getLastD 0, hstep.2,
      List.mem_append_left _ (getLastD_mem (List.cons_ne_nil z zs)), hstep.1⟩

theorem BrepEdge.ext_fields {e f : BrepEdge} (h0 : e.v0 = f.v0) (h1 : e.v1 = f.v1)
    (hn : ∀ b, e.vnext b = f.vnext b) (hp : ∀ b, e.vprev b = f.vprev b)
    (hi : e.m_index = f.m_index) : e = f := by
  have hnt := hn true
  have hnf := hn false
  have hpt := hp true
  have hpf := hp false
  simp only [BrepEdge.vnext, BrepEdge.vprev, cond] at hnt hnf hpt hpf
  cases e
  cases f
  simp_all

/-- A concrete store for witnesses: vertex 0 carries the incidence cycle
consisting of edge 0 = (0,1) and edge 1 = (0,2). -/
def sampleE : EdgeStore := fun k =>
  if k = 0 then { v0 := 0, v1 := 1, next0 := some 1, prev0 := some 1 }
  else if k = 1 then { v0 := 0, v1 := 2, next0 := some 0, prev0 := some 0 }
  else if k = 2 then { v0 := 2, v1 := 0 }
  else { v0 := 5, v1 := 6 }

/-- The edge-list header of vertex 0 in the `sampleE` store. -/
def sampleL : BrepVertexEdgeList := { m_vertex := 0, m_head := some 0, m_size := 2 }

theorem sample_realizes : Realizes sampleE sampleL [0, 1] := by
  refine ⟨by decide, by decide, fun _ => rfl, ?_, ?_⟩
  · refine List.chain'_cons.mpr ⟨⟨by decide, by decide⟩, List.chain'_singleton 1⟩
  · intro a b ha hb
    obtain rfl : (1 : Nat) = a := by simpa using ha
    obtain rfl : (0 : Nat) = b := by simpa using hb
    exact ⟨by decide, by decide⟩

/-- A concrete store whose vertex-0 incidence list holds exactly the single
edge 0 = (0,1), self-linked on side 0. -/
def oneE : EdgeStore := fun k =>
  if k = 0 then { v0 := 0, v1 := 1, next0 := some 0, prev0 := some 0 }
  else { v0 := 5, v1 := 6 }

/-- The singleton edge-list header of vertex 0 in the `oneE` store. -/
def oneL : BrepVertexEdgeList := { m_vertex := 0, m_head := some 0, m_size := 1 }

theorem one_realizes : Realizes oneE oneL [0] := by
  refine ⟨by decide, by decide, fun _ => rfl, List.chain'_singleton 0, ?_⟩
  intro a b ha hb
  obtain rfl : (0 : Nat) = a := by simpa using ha
  obtain rfl : (0 : Nat) = b := by simpa using hb
  exact ⟨by decide, by decide⟩

/-- C1 counterexample: removing the only member of a well-formed singleton
list leaves the size at zero but the head still referencing the removed edge
(the source sets `m_head = next`, and the sole edge is its own successor),
refuting the claim's clause that the head becomes empty/null when the size
becomes zero. -/
theorem C1_remove_head_counterexample :
    Realizes oneE oneL [0] ∧ (0 : Nat) ∈ [0] ∧ oneL.m_head = some 0 ∧
    (remove oneE oneL 0).2.m_size = 0 ∧
    (remove oneE oneL 0).2.m_head = some 0 ∧
    (remove oneE oneL 0).2.m_head ≠ none :=
  ⟨one_realizes, by decide, by decide, by decide, by decide, by decide⟩

/-- C1 (amended): for every well-formed vertex edge list and every member
edge `e`, after `remove(e)`: `e`'s former side-`i` next and previous
neighbors are linked directly to each other on their sides touching this
vertex; if `e` was the head, the head advances to `e`'s former successor —
in every case, including when the size becomes zero, where the former
successor is `e` itself, so the head retains a stale reference to the
removed edge instead of becoming empty/null; and the size decreases by
one. -/
theorem C1_remove_relinks {E : EdgeStore} {L : BrepVertexEdgeList} {es : List Nat} {eid : Nat}
    (hr : Realizes E L es) (hm : eid ∈ es) :
    ∃ nx pv, listNext E L.m_vertex eid = some nx ∧ listPrev E L.m_vertex eid = some pv ∧
      listPrev (remove E L eid).1 L.m_vertex nx = some pv ∧
      listNext (remove E L eid).1 L.m_vertex pv = some nx ∧
      (L.m_head = some eid → (remove E L eid).2.m_head = some nx) ∧
      (L.m_head ≠ some eid → (remove E L eid).2.m_head = L.m_head) ∧
      (remove E L eid).2.m_size + 1 = L.m_size := by
  obtain ⟨nx, hnx, hnxmem, -⟩ := realizes_next_mem hr hm
  obtain ⟨pv, hpv, hpvmem, -⟩ := realizes_prev_mem hr hm
  obtain ⟨ra, rb, rc, -, -, -⟩ := remove_spec hnx hpv
  have hsz1 : L.m_size ≠ 0 := by
    rw [hr.2.1]
    exact (List.length_pos.mpr (List.ne_nil_of_mem hm)).ne'
  refine ⟨nx, pv, hnx, hpv, ?_, ?_, ?_, ?_, ?_⟩
  · rw [rb, if_pos rfl]
  · rw [ra, if_pos rfl]
  · intro hhead
    rw [rc]
    simp [hhead]
  · intro hhead
    rw [rc]
    simp [hhead]
  · rw [rc]
    show L.m_size - 1 + 1 = L.m_size
    omega

/-- C1 witness: the amended remove behavior evaluated on the concrete
two-edge incidence list of vertex 0. -/
theorem C1_remove_relinks_witness :
    ∃ nx pv, listNext sampleE sampleL.m_vertex 0 = some nx ∧
      listPrev sampleE sampleL.m_vertex 0 = some pv ∧
      listPrev (remove sampleE sampleL 0).1 sampleL.m_vertex nx = some pv ∧
      listNext (remove sampleE sampleL 0).1 sampleL.m_vertex pv = some nx ∧
      (sampleL.m_head = some 0 → (remove sampleE sampleL 0).2.m_head = some nx) ∧
      (sampleL.m_head ≠ some 0 → (remove sampleE sampleL 0).2.m_head = sampleL.m_head) ∧
      (remove sampleE sampleL 0).2.m_size + 1 = sampleL.m_size :=
  C1_remove_relinks sample_realizes (by decide)

/-- C4: `push_back` of a fresh incident edge on an empty list makes it its
own successor and predecessor on its side and the head; on a non-empty list
it is spliced immediately before the head (successor = head, predecessor =
the head's former predecessor, that predecessor's successor link and the
head's predecessor link now reference the new edge) with the head unchanged;
in both cases the size increases by one. -/
theorem C4_push_back_spec {E : EdgeStore} {L : BrepVertexEdgeList} {es : List Nat} {eid : Nat}
    (hr : Realizes E L es) (hnm : eid ∉ es)
    (hinc : (E eid).v0 = L.m_vertex ∨ (E eid).v1 = L.m_vertex) :
    (L.m_size = 0 → listNext (push_back E L eid).1 L.m_vertex eid = some eid ∧
        listPrev (push_back E L eid).1 L.m_vertex eid = some eid ∧
        (push_back E L eid).2.m_head = some eid) ∧
    (L.m_size ≠ 0 → ∃ h p, L.m_head = some h ∧ listPrev E L.m_vertex h = some p ∧
        listNext (push_back E L eid).1 L.m_vertex eid = some h ∧
        listPrev (push_back E L eid).1 L.m_vertex eid = some p ∧
        listNext (push_back E L eid).1 L.m_vertex p = some eid ∧
        listPrev (push_back E L eid).1 L.m_vertex h = some eid ∧
        (push_back E L eid).2.m_head = L.m_head) ∧
    (push_back E L eid).2.m_size = L.m_size + 1 := by
  by_cases hsz : L.m_size = 0
  · obtain ⟨pa, pb, pc, -, -, -⟩ := @push_back_spec_empty E L eid hsz
    refine ⟨fun _ => ⟨?_, ?_, ?_⟩, fun hszn => absurd hsz hszn, ?_⟩
    · rw [pa, if_pos rfl]
    · rw [pb, if_pos rfl]
    · rw [pc]
    · rw [pc]
  · have hes : es ≠ [] := by
      intro h
      exact hsz (by rw [hr.2.1, h]; rfl)
    have hh : L.m_head = some (es.headD 0) := by
      rw [hr.2.2.1 hes, head?_eq_headD hes]
    have hpstep : stepRel E L.m_vertex (es.getLastD 0) (es.headD 0) :=
      hr.2.2.2.2 _ _ (getLast?_eq_getLastD hes) (head?_eq_headD hes)
    have heh : eid ≠ es.headD 0 := fun h => hnm (h ▸ headD_mem hes)
    have hep : eid ≠ es.getLastD 0 := fun h => hnm (h ▸ getLastD_mem hes)
    obtain ⟨pa, pb, pc, -, -, -⟩ := push_back_spec_nonempty hsz hh hpstep.2 heh hep
    refine ⟨fun hsz0 => absurd hsz0 hsz, fun _ => ?_, by rw [pc]⟩
    refine ⟨es.headD 0, es.getLastD 0, hh, hpstep.2, ?_, ?_, ?_, ?_, by rw [pc]⟩
    · rw [pa, if_pos rfl]
    · rw [pb, if_pos rfl]
    · rw [pa, if_neg (Ne.symm hep), if_pos rfl]
    · rw [pb, if_neg (Ne.symm heh), if_pos rfl]

/-- C4 witness: pushing the fresh incident edge 2 = (2,0) onto vertex 0's
concrete two-edge list. -/
theorem C4_push_back_spec_witness :
    (sampleL.m_size = 0 → listNext (push_back sampleE sampleL 2).1 sampleL.m_vertex 2 = some 2 ∧
        listPrev (push_back sampleE sampleL 2).1 sampleL.m_vertex 2 = some 2 ∧
        (push_back sampleE sampleL 2).2.m_head = some 2) ∧
    (sampleL.m_size ≠ 0 → ∃ h p, sampleL.m_head = some h ∧
        listPrev sampleE sampleL.m_vertex h = some p ∧
        listNext (push_back sampleE sampleL 2).1 sampleL.m_vertex 2 = some h ∧
        listPrev (push_back sampleE sampleL 2).1 sampleL.m_vertex 2 = some p ∧
        listNext (push_back sampleE sampleL 2).1 sampleL.m_vertex p = some 2 ∧
        listPrev (push_back sampleE sampleL 2).1 sampleL.m_vertex h = some 2 ∧
        (push_back sampleE sampleL 2).2.m_head = sampleL.m_head) ∧
    (push_back sampleE sampleL 2).2.m_size = sampleL.m_size + 1 :=
  C4_push_back_spec sample_realizes (by decide) (by decide)

@[simp] theorem next0_setVprev (e : BrepEdge) (i : Bool) (x : Option Nat) :
    (e.setVprev i x).next0 = e.next0 := by cases i <;> rfl

@[simp] theorem next1_setVprev (e : BrepEdge) (i : Bool) (x : Option Nat) :
    (e.setVprev i x).next1 = e.next1 := by cases i <;> rfl

@[simp] theorem prev0_setVnext (e : BrepEdge) (i : Bool) (x : Option Nat) :
    (e.setVnext i x).prev0 = e.prev0 := by cases i <;> rfl

@[simp] theorem prev1_setVnext (e : BrepEdge) (i : Bool) (x : Option Nat) :
    (e.setVnext i x).prev1 = e.prev1 := by cases i <;> rfl

@[simp] theorem next0_setVnext_true (e : BrepEdge) (x : Option Nat) :
    (e.setVnext true x).next0 = e.next0 := rfl

@[simp] theorem prev0_setVprev_true (e : BrepEdge) (x : Option Nat) :
    (e.setVprev true x).prev0 = e.prev0 := rfl

/-- C8: `push_back(e)` and `remove(e)` on a vertex edge list modify only the
link fields of `e` and of `e`'s two cycle neighbours on their sides touching
this vertex, plus the header: every edge's endpoints and index are
unchanged, every link field on the side away from this vertex is unchanged,
the owning-vertex reference is unchanged, and every edge other than `e` and
its two neighbours keeps its whole record. -/
theorem C8_local_footprint {E : EdgeStore} {L : BrepVertexEdgeList} {es : List Nat}
    (hr : Realizes E L es) (eid : Nat) :
    (eid ∉ es →
      (∀ x, ((push_back E L eid).1 x).v0 = (E x).v0 ∧
          ((push_back E L eid).1 x).v1 = (E x).v1 ∧
          ((push_back E L eid).1 x).m_index = (E x).m_index) ∧
      (∀ x b, b ≠ sideOf (E x) L.m_vertex →
          ((push_back E L eid).1 x).vnext b = (E x).vnext b ∧
          ((push_back E L eid).1 x).vprev b = (E x).vprev b) ∧
      (push_back E L eid).2.m_vertex = L.m_vertex ∧
      (es = [] → ∀ x, x ≠ eid → (push_back E L eid).1 x = E x) ∧
      (es ≠ [] → ∀ x, x ≠ eid → x ≠ es.headD 0 → x ≠ es.getLastD 0 →
          (push_back E L eid).1 x = E x)) ∧
    (eid ∈ es →
      ∃ nx pv, listNext E L.m_vertex eid = some nx ∧ listPrev E L.m_vertex eid = some pv ∧
        (∀ x, ((remove E L eid).1 x).v0 = (E x).v0 ∧
            ((remove E L eid).1 x).v1 = (E x).v1 ∧
            ((remove E L eid).1 x).m_index = (E x).m_index) ∧
        (∀ x b, b ≠ sideOf (E x) L.m_vertex →
            ((remove E L eid).1 x).vnext b = (E x).vnext b ∧
            ((remove E L eid).1 x).vprev b = (E x).vprev b) ∧
        (remove E L eid).2.m_vertex = L.m_vertex ∧
        (∀ x, x ≠ nx → x ≠ pv → (remove E L eid).1 x = E x)) := by
  constructor
  · intro hnm
    by_cases hes : es = []
    · have hsz : L.m_size = 0 := by rw [hr.2.1, hes]; rfl
      obtain ⟨-, -, pc, pd, pe, pf⟩ := @push_back_spec_empty E L eid hsz
      exact ⟨pe, pf, by rw [pc], fun _ x hx => pd x hx, fun hne => absurd hes hne⟩
    · have hh : L.m_head = some (es.headD 0) := by
        rw [hr.2.2.1 hes, head?_eq_headD hes]
      have hpstep : stepRel E L.m_vertex (es.getLastD 0) (es.headD 0) :=
        hr.2.2.2.2 _ _ (getLast?_eq_getLastD hes) (head?_eq_headD hes)
      have heh : eid ≠ es.headD 0 := fun h => hnm (h ▸ headD_mem hes)
      have hep : eid ≠ es.getLastD 0 := fun h => hnm (h ▸ getLastD_mem hes)
      have hsz0 : L.m_size ≠ 0 := by
        rw [hr.2.1]
        exact (List.length_pos.mpr hes).ne'
      obtain ⟨-, -, pc, pd, pe, pf⟩ := push_back_spec_nonempty hsz0 hh hpstep.2 heh hep
      exact ⟨pe, pf, by rw [pc], fun h => absurd h hes,
        fun _ x hx1 hx2 hx3 => pd x hx1 hx3 hx2⟩
  · intro hm
    obtain ⟨nx, hnx, -, -⟩ := realizes_next_mem hr hm
    obtain ⟨pv, hpv, -, -⟩ := realizes_prev_mem hr hm
    obtain ⟨-, -, rc, rd, re, rf⟩ := remove_spec hnx hpv
    exact ⟨nx, pv, hnx, hpv, re, rf, by rw [rc], rd⟩

/-- C8 witness: the footprint statement evaluated on the concrete two-edge
incidence list of vertex 0 with the fresh edge 2. -/
theorem C8_local_footprint_witness :
    ((2 : Nat) ∉ ([0, 1] : List Nat) →
      (∀ x, ((push_back sampleE sampleL 2).1 x).v0 = (sampleE x).v0 ∧
          ((push_back sampleE sampleL 2).1 x).v1 = (sampleE x).v1 ∧
          ((push_back sampleE sampleL 2).1 x).m_index = (sampleE x).m_index) ∧
      (∀ x b, b ≠ sideOf (sampleE x) sampleL.m_vertex →
          ((push_back sampleE sampleL 2).1 x).vnext b = (sampleE x).vnext b ∧
          ((push_back sampleE sampleL 2).1 x).vprev b = (sampleE x).vprev b) ∧
      (push_back sampleE sampleL 2).2.m_vertex = sampleL.m_vertex ∧
      (([0, 1] : List Nat) = [] → ∀ x, x ≠ 2 → (push_back sampleE sampleL 2).1 x = sampleE x) ∧
      (([0, 1] : List Nat) ≠ [] → ∀ x, x ≠ 2 → x ≠ ([0, 1] : List Nat).headD 0 →
          x ≠ ([0, 1] : List Nat).getLastD 0 →
          (push_back sampleE sampleL 2).1 x = sampleE x)) ∧
    ((2 : Nat) ∈ ([0, 1] : List Nat) →
      ∃ nx pv, listNext sampleE sampleL.m_vertex 2 = some nx ∧
        listPrev sampleE sampleL.m_vertex 2 = some pv ∧
        (∀ x, ((remove sampleE sampleL 2).1 x).v0 = (sampleE x).v0 ∧
            ((remove sampleE sampleL 2).1 x).v1 = (sampleE x).v1 ∧
            ((remove sampleE sampleL 2).1 x).m_index = (sampleE x).m_index) ∧
        (∀ x b, b ≠ sideOf (sampleE x) sampleL.m_vertex →
            ((remove sampleE sampleL 2).1 x).vnext b = (sampleE x).vnext b ∧
            ((remove sampleE sampleL 2).1 x).vprev b = (sampleE x).vprev b) ∧
        (remove sampleE sampleL 2).2.m_vertex = sampleL.m_vertex ∧
        (∀ x, x ≠ nx → x ≠ pv → (remove sampleE sampleL 2).1 x = sampleE x)) :=
  C8_local_footprint sample_realizes 2

/-- C9: pushing a fresh edge onto a non-empty well-formed list and
immediately removing it restores the list header exactly (same owning
vertex, same head, same size) and restores every record of the edges that
were in the list before the push (the popped edge itself may keep its
now-dangling link values, exactly as the source leaves them). -/
theorem C9_push_then_remove {E : EdgeStore} {L : BrepVertexEdgeList} {es : List Nat} {eid : Nat}
    (hr : Realizes E L es) (hne : es ≠ []) (hnm : eid ∉ es) :
    (remove (push_back E L eid).1 (push_back E L eid).2 eid).2 = L ∧
    ∀ a ∈ es, (remove (push_back E L eid).1 (push_back E L eid).2 eid).1 a = E a := by
  obtain ⟨hnd, hsz, hhd, hch, hwrap⟩ := hr
  have hh : L.m_head = some (es.headD 0) := by rw [hhd hne, head?_eq_headD hne]
  have hpstep : stepRel E L.m_vertex (es.getLastD 0) (es.headD 0) :=
    hwrap _ _ (getLast?_eq_getLastD hne) (head?_eq_headD hne)
  have heh : eid ≠ es.headD 0 := fun h => hnm (h ▸ headD_mem hne)
  have hep : eid ≠ es.getLastD 0 := fun h => hnm (h ▸ getLastD_mem hne)
  have hsz0 : L.m_size ≠ 0 := by
    rw [hsz]
    exact (List.length_pos.mpr hne).ne'
  obtain ⟨pa, pb, pc, pd, pe, pf⟩ := push_back_spec_nonempty hsz0 hh hpstep.2 heh hep
  have hv1eq : (push_back E L eid).2.m_vertex = L.m_vertex := by rw [pc]
  have hn1 : listNext (push_back E L eid).1 (push_back E L eid).2.m_vertex eid
      = some (es.headD 0) := by
    rw [hv1eq, pa, if_pos rfl]
  have hp1 : listPrev (push_back E L eid).1 (push_back E L eid).2.m_vertex eid
      = some (es.getLastD 0) := by
    rw [hv1eq, pb, if_pos rfl]
  obtain ⟨ra, rb, rc, rd, re, rf⟩ := remove_spec hn1 hp1
  simp only [hv1eq] at ra rb rc rf
  constructor
  · rw [rc]
    have h1 : (push_back E L eid).2.m_head = L.m_head := by rw [pc]
    have h2 : (push_back E L eid).2.m_size = L.m_size + 1 := by rw [pc]
    have hLne : ¬ L.m_head = some eid := by
      rw [hh]
      intro hcon
      exact heh (Option.some_inj.mp hcon).symm
    rw [h1, h2, if_neg hLne, Nat.add_sub_cancel]
  · intro a ha
    have haeid : a ≠ eid := fun h => hnm (h ▸ ha)
    have hE1data := pe a
    have hE2data := re a
    have hside1 : sideOf ((push_back E L eid).1 a) L.m_vertex = sideOf (E a) L.m_vertex := by
      unfold sideOf
      rw [hE1data.2.1]
    have hside2 : sideOf ((remove (push_back E L eid).1 (push_back E L eid).2 eid).1 a)
        L.m_vertex = sideOf (E a) L.m_vertex := by
      unfold sideOf
      rw [hE2data.2.1, hE1data.2.1]
    have hnexteq : listNext (remove (push_back E L eid).1 (push_back E L eid).2 eid).1
        L.m_vertex a = listNext E L.m_vertex a := by
      rw [ra]
      by_cases hap : a = es.getLastD 0
      · rw [if_pos hap, hap]
        exact hpstep.1.symm
      · rw [if_neg hap, pa, if_neg haeid, if_neg hap]
    have hpreveq : listPrev (remove (push_back E L eid).1 (push_back E L eid).2 eid).1
        L.m_vertex a = listPrev E L.m_vertex a := by
      rw [rb]
      by_cases hah : a = es.headD 0
      · rw [if_pos hah, hah]
        exact hpstep.2.symm
      · rw [if_neg hah, pb, if_neg haeid, if_neg hah]
    refine BrepEdge.ext_fields ?_ ?_ ?_ ?_ ?_
    · exact hE2data.1.trans hE1data.1
    · exact hE2data.2.1.trans hE1data.2.1
    · intro b
      by_cases hb : b = sideOf (E a) L.m_vertex
      · subst hb
        have hlhs : ((remove (push_back E L eid).1 (push_back E L eid).2 eid).1 a).vnext
            (sideOf (E a) L.m_vertex) =
            listNext (remove (push_back E L eid).1 (push_back E L eid).2 eid).1
              L.m_vertex a := by
          unfold listNext
          rw [hside2]
        rw [hlhs, hnexteq]
        rfl
      · have hb1 : b ≠ sideOf ((push_back E L eid).1 a) L.m_vertex := by
          rw [hside1]
          exact hb
        exact ((rf a b hb1).1).trans ((pf a b hb).1)
    · intro b
      by_cases hb : b = sideOf (E a) L.m_vertex
      · subst hb
        have hlhs : ((remove (push_back E L eid).1 (push_back E L eid).2 eid).1 a).vprev
            (sideOf (E a) L.m_vertex) =
            listPrev (remove (push_back E L eid).1 (push_back E L eid).2 eid).1
              L.m_vertex a := by
          unfold listPrev
          rw [hside2]
        rw [hlhs, hpreveq]
        rfl
      · have hb1 : b ≠ sideOf ((push_back E L eid).1 a) L.m_vertex := by
          rw [hside1]
          exact hb
        exact ((rf a b hb1).2).trans ((pf a b hb).2)
    · exact hE2data.2.2.trans hE1data.2.2

/-- C9 witness: push-then-remove of the fresh edge 2 on the concrete
two-edge incidence list of vertex 0 restores the header and the member
records. -/
theorem C9_push_then_remove_witness :
    (remove (push_back sampleE sampleL 2).1 (push_back sampleE sampleL 2).2 2).2 = sampleL ∧
    ∀ a ∈ ([0, 1] : List Nat),
      (remove (push_back sampleE sampleL 2).1 (push_back sampleE sampleL 2).2 2).1 a
        = sampleE a :=
  C9_push_then_remove sample_realizes (by decide) (by decide)

/-- C10: both operations pick the working side purely by testing whether the
edge's endpoint 1 equals the owning vertex, so for a degenerate edge whose
two endpoints are both this vertex the computed side is always side 1:
`push_back` leaves the edge's side-0 next/previous slots untouched (never
initializing them), and `remove` reads the neighbours it relinks, and the
head replacement, from the side-1 slots, also leaving the edge's side-0
slots untouched. -/
theorem C10_degenerate_side {E : EdgeStore} {L : BrepVertexEdgeList} {eid : Nat}
    (hv0 : (E eid).v0 = L.m_vertex) (hv1 : (E eid).v1 = L.m_vertex) :
    sideOf (E eid) L.m_vertex = true ∧
    ((push_back E L eid).1 eid).next0 = (E eid).next0 ∧
    ((push_back E L eid).1 eid).prev0 = (E eid).prev0 ∧
    (∀ nx pv, (E eid).next1 = some nx → (E eid).prev1 = some pv →
      (remove E L eid).2.m_size = L.m_size - 1 ∧
      (L.m_head = some eid → (remove E L eid).2.m_head = some nx) ∧
      ((remove E L eid).1 eid).next0 = (E eid).next0 ∧
      ((remove E L eid).1 eid).prev0 = (E eid).prev0) := by
  have hside : sideOf (E eid) L.m_vertex = true := by
    simp [sideOf, hv1]
  refine ⟨hside, ?_, ?_, ?_⟩
  · by_cases hempty : L.isEmptyList = true
    · simp only [push_back, hempty, if_true, hside]
      simp [upd]
    · simp only [push_back, hempty, Bool.false_eq_true, if_false, hside]
      cases hLh : L.m_head with
      | none => rfl
      | some h =>
        simp only []
        cases hp2 : (upd E eid ((E eid).setVnext true (some h)) h).vprev
            (sideOf (E h) L.m_vertex) with
        | none => rfl
        | some p =>
          by_cases h1 : eid = h <;> by_cases h2 : eid = p <;>
            simp_all [upd]
  · by_cases hempty : L.isEmptyList = true
    · simp only [push_back, hempty, if_true, hside]
      simp [upd]
    · simp only [push_back, hempty, Bool.false_eq_true, if_false, hside]
      cases hLh : L.m_head with
      | none => rfl
      | some h =>
        simp only []
        cases hp2 : (upd E eid ((E eid).setVnext true (some h)) h).vprev
            (sideOf (E h) L.m_vertex) with
        | none => rfl
        | some p =>
          by_cases h1 : eid = h <;> by_cases h2 : eid = p <;>
            simp_all [upd]
  · intro nx pv hnx1 hpv1
    have hnx : listNext E L.m_vertex eid = some nx := by
      unfold listNext
      rw [hside]
      exact hnx1
    have hpv : listPrev E L.m_vertex eid = some pv := by
      unfold listPrev
      rw [hside]
      exact hpv1
    obtain ⟨-, -, rc, -, -, rf⟩ := remove_spec hnx hpv
    refine ⟨by rw [rc], ?_, ?_, ?_⟩
    · intro hhd
      rw [rc]
      simp [hhd]
    · have h1 := (rf eid false (by rw [hside]; simp)).1
      simpa [BrepEdge.vnext] using h1
    · have h1 := (rf eid false (by rw [hside]; simp)).2
      simpa [BrepEdge.vprev] using h1

/-- A concrete store whose edge 0 is degenerate: both endpoints are vertex
0, with only the side-1 slots linked. -/
def degE : EdgeStore := fun k =>
  if k = 0 then { v0 := 0, v1 := 0, next1 := some 0, prev1 := some 0 }
  else { v0 := 5, v1 := 6 }

/-- The singleton edge-list header of vertex 0 in the `degE` store. -/
def degL : BrepVertexEdgeList := { m_vertex := 0, m_head := some 0, m_size := 1 }

/-- C10 witness: the degenerate-edge side selection evaluated on a concrete
loop edge at vertex 0. -/
theorem C10_degenerate_side_witness :
    sideOf (degE 0) degL.m_vertex = true ∧
    ((push_back degE degL 0).1 0).next0 = (degE 0).next0 ∧
    ((push_back degE degL 0).1 0).prev0 = (degE 0).prev0 ∧
    (∀ nx pv, (degE 0).next1 = some nx → (degE 0).prev1 = some pv →
      (remove degE degL 0).2.m_size = degL.m_size - 1 ∧
      (degL.m_head = some 0 → (remove degE degL 0).2.m_head = some nx) ∧
      ((remove degE degL 0).1 0).next0 = (degE 0).next0 ∧
      ((remove degE degL 0).1 0).prev0 = (degE 0).prev0) :=
  C10_degenerate_side (by decide) (by decide)

/-- One B-Rep vertex record: its container index and its incidence list
header (the source's `m_index` and `m_edges`). -/
structure BrepVertex where
  m_index : Nat
  m_edges : BrepVertexEdgeList
deriving DecidableEq, Repr

/-- The storage of vertex records, indexed by vertex id. -/
abbrev VertexStore := Nat → BrepVertex

/-- Overwrite the record of vertex `x` in a vertex store. -/
def updV (V : VertexStore) (x : Nat) (r : BrepVertex) : VertexStore :=
  fun k => if k = x then r else V k

@[simp] theorem updV_same (V : VertexStore) (x : Nat) (r : BrepVertex) : updV V x r x = r := by
  simp [updV]

theorem updV_ne (V : VertexStore) (x : Nat) (r : BrepVertex) {k : Nat} (h : k ≠ x) :
    updV V x r k = V k := by
  simp [updV, h]

/-- The mesh: edge and vertex record stores, the live-id list of each
container (in container order, so list position is the container index), and
fresh-id allocation counters standing in for the C++ allocator (pointer
identity). -/
structure BrepMesh where
  edgeRec : EdgeStore
  edgeIds : List Nat
  vertRec : VertexStore
  vertIds : List Nat
  nextEid : Nat
  nextVid : Nat

/-- The mesh with no elements. -/
def emptyMesh : BrepMesh where
  edgeRec := fun _ => { v0 := 0, v1 := 0 }
  edgeIds := []
  vertRec := fun _ => { m_index := 0, m_edges := { m_vertex := 0, m_head := none, m_size := 0 } }
  vertIds := []
  nextEid := 0
  nextVid := 0

/-- Modelled from the spec: the element containers erase by moving the last
element into the freed slot (swap-and-pop); on the id list this replaces the
erased id by the last id and drops the last slot. -/
def swapPop (l : List Nat) (x : Nat) : List Nat :=
  match l.getLast? with
  | none => l
  | some last =>
    if x = last then l.dropLast
    else l.dropLast.map fun y => if y = x then last else y

theorem swapPop_length {l : List Nat} {x : Nat} (hx : x ∈ l) :
    (swapPop l x).length = l.length - 1 := by
  unfold swapPop
  cases hg : l.getLast? with
  | none =>
    exact absurd hg (by rw [getLast?_eq_getLastD (List.ne_nil_of_mem hx)]; simp)
  | some last =>
    show (if x = last then l.dropLast
      else l.dropLast.map fun y => if y = x then last else y).length = l.length - 1
    by_cases hxl : x = last
    · rw [if_pos hxl, List.length_dropLast]
    · rw [if_neg hxl, List.length_map, List.length_dropLast]

theorem mem_swapPop {l : List Nat} {x : Nat} (hnd : l.Nodup) (hx : x ∈ l) (y : Nat) :
    (y ∈ swapPop l x ↔ y ∈ l ∧ y ≠ x) := by
  have hne : l ≠ [] := List.ne_nil_of_mem hx
  unfold swapPop
  cases hg : l.getLast? with
  | none => exact absurd hg (by rw [getLast?_eq_getLastD hne]; simp)
  | some last =>
    show y ∈ (if x = last then l.dropLast
      else l.dropLast.map fun y => if y = x then last else y) ↔ y ∈ l ∧ y ≠ x
    have hlast : last = l.getLastD 0 := by
      rw [getLast?_eq_getLastD hne] at hg
      exact (Option.some_inj.mp hg).symm
    have hsplit : l.dropLast ++ [last] = l := by
      rw [hlast, getLastD_eq_getLast hne]
      exact List.dropLast_append_getLast hne
    have hlastmem : last ∈ l := by
      rw [hlast]
      exact getLastD_mem hne
    have hlastnd : last ∉ l.dropLast := by
      rw [hlast]
      exact getLastD_not_mem_dropLast hnd hne
    have hmeml : ∀ z, z ∈ l ↔ z ∈ l.dropLast ∨ z = last := by
      intro z
      constructor
      · intro hz
        rw [← hsplit] at hz
        simpa using hz
      · intro hz
        rw [← hsplit]
        rcases hz with h | h
        · exact List.mem_append_left _ h
        · simp [h]
    by_cases hxl : x = last
    · rw [if_pos hxl]
      constructor
      · intro hy
        refine ⟨(hmeml y).mpr (Or.inl hy), fun h => hlastnd ?_⟩
        rw [← hxl, ← h]
        exact hy
      · intro hyp
        rcases (hmeml y).mp hyp.1 with h | h
        · exact h
        · exact absurd (h.trans hxl.symm) hyp.2
    · rw [if_neg hxl]
      have hxdrop : x ∈ l.dropLast := by
        rcases (hmeml x).mp hx with h | h
        · exact h
        · exact absurd h hxl
      constructor
      · intro hy
        obtain ⟨z, hz, hfz⟩ := List.mem_map.mp hy
        by_cases hzx : z = x
        · subst hzx
          rw [if_pos rfl] at hfz
          subst hfz
          exact ⟨hlastmem, fun h => hxl h.symm⟩
        · rw [if_neg hzx] at hfz
          subst hfz
          exact ⟨(hmeml z).mpr (Or.inl hz), hzx⟩
      · intro hyp
        rcases (hmeml y).mp hyp.1 with h | h
        · exact List.mem_map.mpr ⟨y, h, by rw [if_neg hyp.2]⟩
        · exact List.mem_map.mpr ⟨x, hxdrop, by rw [if_pos rfl, h]⟩

theorem swapPop_nodup {l : List Nat} {x : Nat} (hnd : l.Nodup) : (swapPop l x).Nodup := by
  unfold swapPop
  cases hg : l.getLast? with
  | none => exact hnd
  | some last =>
    have hne : l ≠ [] := by
      intro h
      subst h
      simp at hg
    have hlast : last = l.getLastD 0 := by
      rw [getLast?_eq_getLastD hne] at hg
      exact (Option.some_inj.mp hg).symm
    have hdropnd : l.dropLast.Nodup := (List.dropLast_sublist l).nodup hnd
    have hlastnd : last ∉ l.dropLast := by
      rw [hlast]
      exact getLastD_not_mem_dropLast hnd hne
    show (if x = last then l.dropLast
      else l.dropLast.map fun y => if y = x then last else y).Nodup
    by_cases hxl : x = last
    · rw [if_pos hxl]
      exact hdropnd
    · rw [if_neg hxl]
      refine List.Nodup.map_on ?_ hdropnd
      intro z hz w hw hf
      by_cases hzx : z = x <;> by_cases hwx : w = x
      · rw [hzx, hwx]
      · rw [if_pos hzx, if_neg hwx] at hf
        exact absurd (hf.symm ▸ hw) hlastnd
      · rw [if_neg hzx, if_pos hwx] at hf
        exact absurd (hf ▸ hz) hlastnd
      · rwa [if_neg hzx, if_neg hwx] at hf

/-- `brep_vertex_container::emplace_back`, from the source, on top of the
base container emplace (Modelled from the spec: constructs a new element and
appends it; the fresh id stands for the new element's identity).  The source
then assigns `vertex->m_index = size() - 1` and points the edge list's
owning-vertex reference back at the new vertex; a new vertex starts with an
empty incidence list. -/
def vertexEmplace (M : BrepMesh) : BrepMesh × Nat :=
  let vid := M.nextVid
  ({ M with
      vertRec := updV M.vertRec vid
        { m_index := (M.vertIds ++ [vid]).length - 1,
          m_edges := { m_vertex := vid, m_head := none, m_size := 0 } },
      vertIds := M.vertIds ++ [vid],
      nextVid := vid + 1 }, vid)

/-- The fresh edge record written into the store by `edgeEmplace`. -/
def eeE0 (M : BrepMesh) (a b : Nat) : EdgeStore :=
  upd M.edgeRec M.nextEid
    { v0 := a, v1 := b, m_index := (M.edgeIds ++ [M.nextEid]).length - 1 }

/-- First stage of `edgeEmplace`: append the fresh edge to endpoint 0's
incidence list. -/
def eeR1 (M : BrepMesh) (a b : Nat) : EdgeStore × BrepVertexEdgeList :=
  push_back (eeE0 M a b) ((M.vertRec a).m_edges) M.nextEid

/-- Vertex store after writing back endpoint 0's updated list header. -/
def eeV1 (M : BrepMesh) (a b : Nat) : VertexStore :=
  updV M.vertRec a { M.vertRec a with m_edges := (eeR1 M a b).2 }

/-- Second stage of `edgeEmplace`: append the fresh edge to endpoint 1's
incidence list. -/
def eeR2 (M : BrepMesh) (a b : Nat) : EdgeStore × BrepVertexEdgeList :=
  push_back (eeR1 M a b).1 ((eeV1 M a b b).m_edges) M.nextEid

/-- Vertex store after writing back endpoint 1's updated list header. -/
def eeV2 (M : BrepMesh) (a b : Nat) : VertexStore :=
  updV (eeV1 M a b) b { eeV1 M a b b with m_edges := (eeR2 M a b).2 }

/-- Modelled from the spec: `brep_edge_container::emplace_back(a, b)`
(`brep-edge.cpp` is not among the sources): constructs a new edge record
referencing endpoint vertices `a` and `b` with index = current size, appends
it to the edge container, and appends it to both endpoints' incidence lists
via `brep_vertex_edge_list::push_back` (endpoint 0 first). -/
def edgeEmplace (M : BrepMesh) (a b : Nat) : BrepMesh × Nat :=
  ({ M with
      edgeRec := (eeR2 M a b).1,
      vertRec := eeV2 M a b,
      edgeIds := M.edgeIds ++ [M.nextEid],
      nextEid := M.nextEid + 1 }, M.nextEid)

/-- First stage of `edgeErase`: detach the edge from endpoint 0's incidence
list. -/
def erR1 (M : BrepMesh) (eid : Nat) : EdgeStore × BrepVertexEdgeList :=
  remove M.edgeRec ((M.vertRec (M.edgeRec eid).v0).m_edges) eid

/-- Vertex store after writing back endpoint 0's updated list header. -/
def erV1 (M : BrepMesh) (eid : Nat) : VertexStore :=
  updV M.vertRec (M.edgeRec eid).v0
    { M.vertRec (M.edgeRec eid).v0 with m_edges := (erR1 M eid).2 }

/-- Second stage of `edgeErase`: detach the edge from endpoint 1's incidence
list. -/
def erR2 (M : BrepMesh) (eid : Nat) : EdgeStore × BrepVertexEdgeList :=
  remove (erR1 M eid).1 ((erV1 M eid (M.edgeRec eid).v1).m_edges) eid

/-- Vertex store after writing back endpoint 1's updated list header. -/
def erV2 (M : BrepMesh) (eid : Nat) : VertexStore :=
  updV (erV1 M eid) (M.edgeRec eid).v1
    { erV1 M eid (M.edgeRec eid).v1 with m_edges := (erR2 M eid).2 }

/-- Modelled from the spec: `brep_edge_container::erase` (not among the
sources): erasing an edge detaches it from both its endpoints' incidence
lists via `brep_vertex_edge_list::remove` (endpoint 0 first) and then
removes it from the edge container (swap-and-pop, rewriting the moved edge's
index to the freed index); faces and loops are outside this model. -/
def edgeErase (M : BrepMesh) (eid : Nat) : BrepMesh :=
  { M with
    edgeRec := upd (erR2 M eid).1 (M.edgeIds.getLastD 0)
      { (erR2 M eid).1 (M.edgeIds.getLastD 0) with m_index := (M.edgeRec eid).m_index },
    vertRec := erV2 M eid,
    edgeIds := swapPop M.edgeIds eid }

/-- Modelled from the spec / header: `brep_vertex_edge_list::back()` (not
among the sources) returns the last incident edge, i.e. the predecessor of
the head on the head's side relevant to this vertex. -/
def velBack (E : EdgeStore) (L : BrepVertexEdgeList) : Option Nat :=
  match L.m_head with
  | none => none
  | some h => listPrev E L.m_vertex h

/-- The drain loop of `brep_vertex_container::erase`, from the source: while
the vertex's incident-edge list is non-empty, erase its last incident edge.
The C++ `while` loop is modelled with explicit fuel; under the mesh
invariant each iteration removes exactly one edge from this vertex's list,
so fuel equal to the list size runs the loop to completion. -/
def eraseVertexLoop (vid : Nat) : Nat → BrepMesh → BrepMesh
  | 0, M => M
  | fuel + 1, M =>
    if (M.vertRec vid).m_edges.m_size = 0 then M
    else
      match velBack M.edgeRec ((M.vertRec vid).m_edges) with
      | none => M
      | some e => eraseVertexLoop vid fuel (edgeErase M e)

/-- Modelled from the spec: the base `brep_element_container::erase` for the
vertex container: swap-and-pop on the id list, rewriting the moved vertex's
index to the freed index. -/
def vertexContainerErase (M : BrepMesh) (vid : Nat) : BrepMesh :=
  let moved := M.vertIds.getLastD 0
  { M with
    vertRec := updV M.vertRec moved
      { M.vertRec moved with m_index := (M.vertRec vid).m_index },
    vertIds := swapPop M.vertIds vid }

/-- `brep_vertex_container::erase`, from the source: first erase all edges
bounded by this vertex (repeatedly erasing the back of its incidence list),
and only then erase the vertex record itself from the container. -/
def vertexErase (M : BrepMesh) (vid : Nat) : BrepMesh :=
  vertexContainerErase (eraseVertexLoop vid ((M.vertRec vid).m_edges).m_size M) vid

/-- The loop of `brep_vertex_container::clear`, from the source: while the
container is non-empty, erase its back (its last element); fuel equal to the
vertex count runs the loop to completion. -/
def vertexClearLoop : Nat → BrepMesh → BrepMesh
  | 0, M => M
  | fuel + 1, M =>
    if M.vertIds = [] then M
    else vertexClearLoop fuel (vertexErase M (M.vertIds.getLastD 0))

/-- `brep_vertex_container::clear`, from the source. -/
def vertexContainerClear (M : BrepMesh) : BrepMesh :=
  vertexClearLoop M.vertIds.length M

/-- Modelled from the spec: the vertex container's trivial `size()` query. -/
def vertexCount (M : BrepMesh) : Nat := M.vertIds.length

/-- Modelled from the spec: the vertex container's trivial `empty()` query. -/
def vertexContainerEmpty (M : BrepMesh) : Bool := M.vertIds.isEmpty

/-- The kernel invariant package for a mesh, relative to an abstraction `A`
assigning to every live vertex id the cyclic list of its incident edges (in
head-first order). -/
structure MeshInv (M : BrepMesh) (A : Nat → List Nat) : Prop where
  vnodup : M.vertIds.Nodup
  enodup : M.edgeIds.Nodup
  vfresh : ∀ v ∈ M.vertIds, v < M.nextVid
  efresh : ∀ e ∈ M.edgeIds, e < M.nextEid
  owner : ∀ v ∈ M.vertIds, (M.vertRec v).m_edges.m_vertex = v
  lists : ∀ v ∈ M.vertIds, Realizes M.edgeRec (M.vertRec v).m_edges (A v)
  mem_edges : ∀ v ∈ M.vertIds, ∀ e ∈ A v, e ∈ M.edgeIds
  incident : ∀ v ∈ M.vertIds, ∀ e ∈ A v, (M.edgeRec e).v0 = v ∨ (M.edgeRec e).v1 = v
  complete : ∀ v ∈ M.vertIds, ∀ e ∈ M.edgeIds,
    ((M.edgeRec e).v0 = v ∨ (M.edgeRec e).v1 = v) → e ∈ A v
  endpoints_live : ∀ e ∈ M.edgeIds,
    (M.edgeRec e).v0 ∈ M.vertIds ∧ (M.edgeRec e).v1 ∈ M.vertIds
  nondegen : ∀ e ∈ M.edgeIds, (M.edgeRec e).v0 ≠ (M.edgeRec e).v1

/-- Pointwise update of the incidence abstraction. -/
def updA (A : Nat → List Nat) (v : Nat) (l : List Nat) : Nat → List Nat :=
  fun k => if k = v then l else A k

@[simp] theorem updA_same (A : Nat → List Nat) (v : Nat) (l : List Nat) : updA A v l v = l := by
  simp [updA]

theorem updA_ne (A : Nat → List Nat) (v : Nat) (l : List Nat) {k : Nat} (h : k ≠ v) :
    updA A v l k = A k := by
  simp [updA, h]

/-- An edge incident to two different vertices uses a different side for
each of them: the side tests compare endpoint 1 against each vertex, and the
two endpoints cannot both coincide with both vertices. -/
theorem sides_differ {e : BrepEdge} {v w : Nat} (hvw : v ≠ w)
    (hv : e.v0 = v ∨ e.v1 = v) (hw : e.v0 = w ∨ e.v1 = w) :
    sideOf e v ≠ sideOf e w := by
  unfold sideOf
  rcases hv with h1 | h1 <;> rcases hw with h2 | h2
  · exact absurd (h1.symm.trans h2) hvw
  · rw [h2]
    simp [Ne.symm hvw]
  · rw [h1]
    simp [hvw]
  · exact absurd (h1.symm.trans h2) hvw

/-- `push_back` never changes any edge's endpoints or index. -/
theorem push_back_data (E : EdgeStore) (L : BrepVertexEdgeList) (eid x : Nat) :
    ((push_back E L eid).1 x).v0 = (E x).v0 ∧ ((push_back E L eid).1 x).v1 = (E x).v1 ∧
    ((push_back E L eid).1 x).m_index = (E x).m_index := by
  unfold push_back
  by_cases hempty : L.isEmptyList = true
  · simp only [hempty, if_true]
    by_cases hx : x = eid <;> simp [upd, hx]
  · simp only [hempty, Bool.false_eq_true, if_false]
    cases hLh : L.m_head with
    | none => exact ⟨rfl, rfl, rfl⟩
    | some h =>
      simp only []
      cases hp2 : (upd E eid ((E eid).setVnext (sideOf (E eid) L.m_vertex) (some h)) h).vprev
          (sideOf (E h) L.m_vertex) with
      | none => exact ⟨rfl, rfl, rfl⟩
      | some p =>
        by_cases h1 : x = eid <;> by_cases h2 : x = p <;> by_cases h3 : x = h <;>
          simp_all [upd]

/-- `remove` never changes any edge's endpoints or index. -/
theorem remove_data (E : EdgeStore) (L : BrepVertexEdgeList) (eid x : Nat) :
    ((remove E L eid).1 x).v0 = (E x).v0 ∧ ((remove E L eid).1 x).v1 = (E x).v1 ∧
    ((remove E L eid).1 x).m_index = (E x).m_index := by
  cases hn : (E eid).vnext (sideOf (E eid) L.m_vertex) with
  | none =>
    unfold remove
    simp only [hn]
    exact ⟨trivial, trivial, trivial⟩
  | some nx =>
    cases hp : (E eid).vprev (sideOf (E eid) L.m_vertex) with
    | none =>
      unfold remove
      simp only [hn, hp]
      exact ⟨trivial, trivial, trivial⟩
    | some pv =>
      unfold remove
      simp only [hn, hp]
      by_cases h1 : x = nx <;> by_cases h2 : x = pv <;> simp_all [upd]

/-- `push_back` on a vertex edge list never writes any link slot on a side
other than the written edge's side relevant to this vertex. -/
theorem push_back_sideframe (E : EdgeStore) (L : BrepVertexEdgeList) (eid x : Nat)
    (b : Bool) (hb : b ≠ sideOf (E x) L.m_vertex) :
    ((push_back E L eid).1 x).vnext b = (E x).vnext b ∧
    ((push_back E L eid).1 x).vprev b = (E x).vprev b := by
  unfold push_back
  by_cases hempty : L.isEmptyList = true
  · simp only [hempty, if_true]
    by_cases hx : x = eid <;>
      simp_all [upd, vnext_setVnext_ne, vprev_setVprev_ne]
  · simp only [hempty, Bool.false_eq_true, if_false]
    cases hLh : L.m_head with
    | none => exact ⟨rfl, rfl⟩
    | some h =>
      simp only []
      cases hp2 : (upd E eid ((E eid).setVnext (sideOf (E eid) L.m_vertex) (some h)) h).vprev
          (sideOf (E h) L.m_vertex) with
      | none => exact ⟨rfl, rfl⟩
      | some p =>
        by_cases h1 : x = eid <;> by_cases h2 : x = p <;> by_cases h3 : x = h <;>
          simp_all [upd, vnext_setVnext_ne, vprev_setVprev_ne]

/-- `remove` on a vertex edge list never writes any link slot on a side
other than the written edge's side relevant to this vertex. -/
theorem remove_sideframe (E : EdgeStore) (L : BrepVertexEdgeList) (eid x : Nat)
    (b : Bool) (hb : b ≠ sideOf (E x) L.m_vertex) :
    ((remove E L eid).1 x).vnext b = (E x).vnext b ∧
    ((remove E L eid).1 x).vprev b = (E x).vprev b := by
  cases hn : (E eid).vnext (sideOf (E eid) L.m_vertex) with
  | none =>
    unfold remove
    simp only [hn]
    exact ⟨trivial, trivial⟩
  | some nx =>
    cases hp : (E eid).vprev (sideOf (E eid) L.m_vertex) with
    | none =>
      unfold remove
      simp only [hn, hp]
      exact ⟨trivial, trivial⟩
    | some pv =>
      unfold remove
      simp only [hn, hp]
      by_cases h1 : x = nx <;> by_cases h2 : x = pv <;>
        simp_all [upd, vnext_setVnext_ne, vprev_setVprev_ne]

/-- `push_back` preserves the owning-vertex reference of the list header. -/
theorem push_back_vertex_eq (E : EdgeStore) (L : BrepVertexEdgeList) (eid : Nat) :
    (push_back E L eid).2.m_vertex = L.m_vertex := by
  unfold push_back
  by_cases hempty : L.isEmptyList = true
  · simp only [hempty, if_true]
  · simp only [hempty, Bool.false_eq_true, if_false]
    cases hLh : L.m_head with
    | none => rfl
    | some h =>
      simp only []
      cases hp2 : (upd E eid ((E eid).setVnext (sideOf (E eid) L.m_vertex) (some h)) h).vprev
          (sideOf (E h) L.m_vertex) with
      | none => rfl
      | some p => rfl

/-- `remove` preserves the owning-vertex reference of the list header. -/
theorem remove_vertex_eq (E : EdgeStore) (L : BrepVertexEdgeList) (eid : Nat) :
    (remove E L eid).2.m_vertex = L.m_vertex := by
  cases hn : (E eid).vnext (sideOf (E eid) L.m_vertex) with
  | none =>
    unfold remove
    simp only [hn]
  | some nx =>
    cases hp : (E eid).vprev (sideOf (E eid) L.m_vertex) with
    | none =>
      unfold remove
      simp only [hn, hp]
    | some pv =>
      unfold remove
      simp only [hn, hp]
      by_cases hh : L.m_head = some eid <;> simp [hh]

/-- A store change that only writes on sides relevant to vertex `v` leaves
both link reads of any edge whose `w`-side differs from its `v`-side
unchanged. -/
theorem agree_of_sideframe {E E2 : EdgeStore} {v w : Nat}
    (hdata : ∀ x, (E2 x).v1 = (E x).v1)
    (hframe : ∀ x b, b ≠ sideOf (E x) v →
        (E2 x).vnext b = (E x).vnext b ∧ (E2 x).vprev b = (E x).vprev b)
    (a : Nat) (hside : sideOf (E a) w ≠ sideOf (E a) v) :
    listNext E2 w a = listNext E w a ∧ listPrev E2 w a = listPrev E w a := by
  have hs : sideOf (E2 a) w = sideOf (E a) w := by
    unfold sideOf
    rw [hdata a]
  have h := hframe a (sideOf (E a) w) hside
  unfold listNext listPrev
  rw [hs]
  exact h

theorem agree_of_eq {E E2 : EdgeStore} {w a : Nat} (h : E2 a = E a) :
    listNext E2 w a = listNext E w a ∧ listPrev E2 w a = listPrev E w a := by
  unfold listNext listPrev
  rw [h]
  exact ⟨rfl, rfl⟩

/-- Rewriting only the container index of one edge record changes no link
read. -/
theorem agree_index_fixup (E : EdgeStore) (m i w x : Nat) :
    listNext (upd E m { E m with m_index := i }) w x = listNext E w x ∧
    listPrev (upd E m { E m with m_index := i }) w x = listPrev E w x := by
  by_cases hxm : x = m
  · subst hxm
    constructor <;>
      simp [listNext, listPrev, upd, BrepEdge.vnext, BrepEdge.vprev, sideOf]
  · exact agree_of_eq (upd_ne _ _ _ hxm)

/-- A `push_back` on one vertex's list does not disturb the link reads of
another vertex `w` at any edge that either uses a different side for `w`
than for this vertex (any member of both incidence lists) or is entirely
untouched (any edge outside this list other than the pushed edge). -/
theorem push_back_cross_agree {E : EdgeStore} {L : BrepVertexEdgeList} {es : List Nat}
    {eid : Nat} (hr : Realizes E L es) (hnm : eid ∉ es) (w x : Nat)
    (hside : (x ∈ es ∨ x = eid) → sideOf (E x) w ≠ sideOf (E x) L.m_vertex) :
    listNext (push_back E L eid).1 w x = listNext E w x ∧
    listPrev (push_back E L eid).1 w x = listPrev E w x := by
  by_cases hmem : x ∈ es ∨ x = eid
  · exact agree_of_sideframe (fun y => (push_back_data E L eid y).2.1)
      (push_back_sideframe E L eid) x (hside hmem)
  · push_neg at hmem
    by_cases hes : es = []
    · have hsz : L.m_size = 0 := by rw [hr.2.1, hes]; rfl
      obtain ⟨-, -, -, pd, -, -⟩ := @push_back_spec_empty E L eid hsz
      exact agree_of_eq (pd x hmem.2)
    · have hh : L.m_head = some (es.headD 0) := by
        rw [hr.2.2.1 hes, head?_eq_headD hes]
      have hpstep : stepRel E L.m_vertex (es.getLastD 0) (es.headD 0) :=
        hr.2.2.2.2 _ _ (getLast?_eq_getLastD hes) (head?_eq_headD hes)
      have heh : eid ≠ es.headD 0 := fun h => hnm (h ▸ headD_mem hes)
      have hep : eid ≠ es.getLastD 0 := fun h => hnm (h ▸ getLastD_mem hes)
      have hsz0 : L.m_size ≠ 0 := by
        rw [hr.2.1]
        exact (List.length_pos.mpr hes).ne'
      obtain ⟨-, -, -, pd, -, -⟩ := push_back_spec_nonempty hsz0 hh hpstep.2 heh hep
      refine agree_of_eq (pd x hmem.2 ?_ ?_)
      · exact fun h => hmem.1 (h ▸ getLastD_mem hes)
      · exact fun h => hmem.1 (h ▸ headD_mem hes)

/-- A `remove` on one vertex's list does not disturb the link reads of
another vertex `w` at any edge that either uses a different side for `w`
than for this vertex or is outside this list. -/
theorem remove_cross_agree {E : EdgeStore} {L : BrepVertexEdgeList} {es : List Nat}
    {eid : Nat} (hr : Realizes E L es) (hm : eid ∈ es) (w x : Nat)
    (hside : x ∈ es → sideOf (E x) w ≠ sideOf (E x) L.m_vertex) :
    listNext (remove E L eid).1 w x = listNext E w x ∧
    listPrev (remove E L eid).1 w x = listPrev E w x := by
  by_cases hmem : x ∈ es
  · exact agree_of_sideframe (fun y => (remove_data E L eid y).2.1)
      (remove_sideframe E L eid) x (hside hmem)
  · obtain ⟨nx, hnx, hnxmem, -⟩ := realizes_next_mem hr hm
    obtain ⟨pv, hpv, hpvmem, -⟩ := realizes_prev_mem hr hm
    obtain ⟨-, -, -, rd, -, -⟩ := remove_spec hnx hpv
    refine agree_of_eq (rd x ?_ ?_)
    · exact fun h => hmem (h ▸ hnxmem)
    · exact fun h => hmem (h ▸ hpvmem)

/-- `vertexEmplace` preserves the mesh invariant; the fresh vertex's
incidence list is empty. -/
theorem meshInv_vertexEmplace {M : BrepMesh} {A : Nat → List Nat} (hinv : MeshInv M A) :
    MeshInv (vertexEmplace M).1 (updA A M.nextVid []) := by
  have hfresh : M.nextVid ∉ M.vertIds := fun h => absurd (hinv.vfresh _ h) (lt_irrefl _)
  constructor
  · show (M.vertIds ++ [M.nextVid]).Nodup
    simp [List.nodup_append, hinv.vnodup, List.disjoint_singleton]
    exact hfresh
  · exact hinv.enodup
  · intro v hv
    show v < M.nextVid + 1
    rcases List.mem_append.mp hv with h | h
    · exact Nat.lt_succ_of_lt (hinv.vfresh v h)
    · simp at h
      omega
  · exact hinv.efresh
  · intro v hv
    rcases List.mem_append.mp hv with h | h
    · have hne : v ≠ M.nextVid := fun hc => hfresh (hc ▸ h)
      show ((updV M.vertRec M.nextVid _ ) v).m_edges.m_vertex = v
      rw [updV_ne _ _ _ hne]
      exact hinv.owner v h
    · simp at h
      subst h
      show ((updV M.vertRec M.nextVid
        { m_index := (M.vertIds ++ [M.nextVid]).length - 1,
          m_edges := { m_vertex := M.nextVid, m_head := none, m_size := 0 } })
          M.nextVid).m_edges.m_vertex = M.nextVid
      rw [updV_same]
  · intro v hv
    rcases List.mem_append.mp hv with h | h
    · have hne : v ≠ M.nextVid := fun hc => hfresh (hc ▸ h)
      show Realizes M.edgeRec ((updV M.vertRec M.nextVid _ ) v).m_edges (updA A M.nextVid [] v)
      rw [updV_ne _ _ _ hne, updA_ne _ _ _ hne]
      exact hinv.lists v h
    · simp at h
      subst h
      show Realizes M.edgeRec ((updV M.vertRec M.nextVid _ ) M.nextVid).m_edges
        (updA A M.nextVid [] M.nextVid)
      rw [updV_same, updA_same]
      exact ⟨List.nodup_nil, rfl, fun hc => absurd rfl hc, List.chain'_nil,
        fun a b ha hb => by simp at ha⟩
  · intro v hv e he
    rcases List.mem_append.mp hv with h | h
    · have hne : v ≠ M.nextVid := fun hc => hfresh (hc ▸ h)
      rw [updA_ne _ _ _ hne] at he
      exact hinv.mem_edges v h e he
    · simp at h
      subst h
      rw [updA_same] at he
      simp at he
  · intro v hv e he
    rcases List.mem_append.mp hv with h | h
    · have hne : v ≠ M.nextVid := fun hc => hfresh (hc ▸ h)
      rw [updA_ne _ _ _ hne] at he
      exact hinv.incident v h e he
    · simp at h
      subst h
      rw [updA_same] at he
      simp at he
  · intro v hv e he hincv
    rcases List.mem_append.mp hv with h | h
    · have hne : v ≠ M.nextVid := fun hc => hfresh (hc ▸ h)
      rw [updA_ne _ _ _ hne]
      exact hinv.complete v h e he hincv
    · simp at h
      subst h
      rcases hincv with h0 | h0
      · have h0b : (M.edgeRec e).v0 = M.nextVid := h0
        have := (hinv.endpoints_live e he).1
        rw [h0b] at this
        exact absurd this hfresh
      · have h0b : (M.edgeRec e).v1 = M.nextVid := h0
        have := (hinv.endpoints_live e he).2
        rw [h0b] at this
        exact absurd this hfresh
  · intro e he
    exact ⟨List.mem_append_left _ (hinv.endpoints_live e he).1,
      List.mem_append_left _ (hinv.endpoints_live e he).2⟩
  · exact hinv.nondegen

/-- Adding an edge between two distinct live vertices preserves the mesh
invariant: the fresh edge is appended to both endpoints' incidence cycles. -/
theorem meshInv_edgeEmplace {M : BrepMesh} {A : Nat → List Nat} (hinv : MeshInv M A)
    {a b : Nat} (ha : a ∈ M.vertIds) (hb : b ∈ M.vertIds) (hab : a ≠ b) :
    MeshInv (edgeEmplace M a b).1
      (updA (updA A a (A a ++ [M.nextEid])) b (A b ++ [M.nextEid])) := by
  have hba : b ≠ a := Ne.symm hab
  have hefresh : M.nextEid ∉ M.edgeIds := fun h => absurd (hinv.efresh _ h) (lt_irrefl _)
  have hnotin : ∀ v ∈ M.vertIds, M.nextEid ∉ A v := fun v hv hmem =>
    hefresh (hinv.mem_edges v hv _ hmem)
  have hvla : (M.vertRec a).m_edges.m_vertex = a := hinv.owner a ha
  have hvlb : (M.vertRec b).m_edges.m_vertex = b := hinv.owner b hb
  have hmem_ne : ∀ v ∈ M.vertIds, ∀ x ∈ A v, x ≠ M.nextEid := fun v hv x hx h =>
    hnotin v hv (h ▸ hx)
  have hE0data : ∀ x, x ≠ M.nextEid → eeE0 M a b x = M.edgeRec x := fun x hx =>
    upd_ne _ _ _ hx
  have hE0eid : eeE0 M a b M.nextEid =
      { v0 := a, v1 := b, m_index := (M.edgeIds ++ [M.nextEid]).length - 1 } := upd_same _ _ _
  have hrealE0 : ∀ v ∈ M.vertIds, Realizes (eeE0 M a b) ((M.vertRec v).m_edges) (A v) :=
    fun v hv => realizes_agree
      (fun x hx => agree_of_eq (hE0data x (hmem_ne v hv x hx))) (hinv.lists v hv)
  have hra1 : Realizes (eeR1 M a b).1 (eeR1 M a b).2 (A a ++ [M.nextEid]) :=
    realizes_push_back (hrealE0 a ha) (hnotin a ha)
  have hV1b : eeV1 M a b b = M.vertRec b := updV_ne _ _ _ hba
  have heeR2 : eeR2 M a b = push_back (eeR1 M a b).1 ((M.vertRec b).m_edges) M.nextEid := by
    unfold eeR2
    rw [hV1b]
  have hR1v : (eeR1 M a b).2.m_vertex = a :=
    (push_back_vertex_eq _ _ _).trans hvla
  have hR2v : (eeR2 M a b).2.m_vertex = b := by
    rw [heeR2]
    exact (push_back_vertex_eq _ _ _).trans hvlb
  have hd2 : ∀ x, ((eeR2 M a b).1 x).v0 = (eeE0 M a b x).v0 ∧
      ((eeR2 M a b).1 x).v1 = (eeE0 M a b x).v1 := by
    intro x
    have h1 := push_back_data (eeE0 M a b) ((M.vertRec a).m_edges) M.nextEid x
    have h2 := push_back_data (eeR1 M a b).1 ((eeV1 M a b b).m_edges) M.nextEid x
    exact ⟨h2.1.trans h1.1, h2.2.1.trans h1.2.1⟩
  have hdataM : ∀ x, x ≠ M.nextEid → ((eeR2 M a b).1 x).v0 = (M.edgeRec x).v0 ∧
      ((eeR2 M a b).1 x).v1 = (M.edgeRec x).v1 := by
    intro x hx
    have := hd2 x
    rw [hE0data x hx] at this
    exact this
  have hdataEid : ((eeR2 M a b).1 M.nextEid).v0 = a ∧ ((eeR2 M a b).1 M.nextEid).v1 = b := by
    have := hd2 M.nextEid
    rw [hE0eid] at this
    exact this
  have hrb_R1 : Realizes (eeR1 M a b).1 ((M.vertRec b).m_edges) (A b) := by
    refine realizes_agree (fun x hx => ?_) (hrealE0 b hb)
    rw [hvlb]
    refine push_back_cross_agree (hrealE0 a ha) (hnotin a ha) b x ?_
    intro hmem
    rw [hvla]
    rcases hmem with hxa | hxe
    · have hxeid : x ≠ M.nextEid := hmem_ne a ha x hxa
      rw [hE0data x hxeid]
      exact sides_differ hba (hinv.incident b hb x hx) (hinv.incident a ha x hxa)
    · exact absurd hxe (hmem_ne b hb x hx)
  have hrb2 : Realizes (eeR2 M a b).1 (eeR2 M a b).2 (A b ++ [M.nextEid]) := by
    rw [heeR2]
    exact realizes_push_back hrb_R1 (hnotin b hb)
  have hsideeid : sideOf ((eeR1 M a b).1 M.nextEid) a ≠ sideOf ((eeR1 M a b).1 M.nextEid) b := by
    have hdat : ((eeR1 M a b).1 M.nextEid).v0 = (eeE0 M a b M.nextEid).v0 ∧
        ((eeR1 M a b).1 M.nextEid).v1 = (eeE0 M a b M.nextEid).v1 ∧
        ((eeR1 M a b).1 M.nextEid).m_index = (eeE0 M a b M.nextEid).m_index :=
      push_back_data (eeE0 M a b) ((M.vertRec a).m_edges) M.nextEid M.nextEid
    have h0 : ((eeR1 M a b).1 M.nextEid).v0 = a := by rw [hdat.1, hE0eid]
    have h1 : ((eeR1 M a b).1 M.nextEid).v1 = b := by rw [hdat.2.1, hE0eid]
    exact sides_differ hab (Or.inl h0) (Or.inr h1)
  have hra2 : Realizes (eeR2 M a b).1 (eeR1 M a b).2 (A a ++ [M.nextEid]) := by
    refine realizes_agree (fun x hx => ?_) hra1
    rw [hR1v, heeR2]
    refine push_back_cross_agree hrb_R1 (hnotin b hb) a x ?_
    intro hmem
    rw [hvlb]
    rcases List.mem_append.mp hx with hxa | hxe
    · have hxeid : x ≠ M.nextEid := hmem_ne a ha x hxa
      have hdat : ((eeR1 M a b).1 x).v0 = (eeE0 M a b x).v0 ∧
          ((eeR1 M a b).1 x).v1 = (eeE0 M a b x).v1 ∧
          ((eeR1 M a b).1 x).m_index = (eeE0 M a b x).m_index :=
        push_back_data (eeE0 M a b) ((M.vertRec a).m_edges) M.nextEid x
      have hv0 : ((eeR1 M a b).1 x).v0 = (M.edgeRec x).v0 := by
        rw [hdat.1, hE0data x hxeid]
      have hv1 : ((eeR1 M a b).1 x).v1 = (M.edgeRec x).v1 := by
        rw [hdat.2.1, hE0data x hxeid]
      rcases hmem with hxb | hxe2
      · refine sides_differ hab ?_ ?_
        · rcases hinv.incident a ha x hxa with h | h
          · exact Or.inl (hv0.trans h)
          · exact Or.inr (hv1.trans h)
        · rcases hinv.incident b hb x hxb with h | h
          · exact Or.inl (hv0.trans h)
          · exact Or.inr (hv1.trans h)
      · exact absurd hxe2 hxeid
    · simp at hxe
      subst hxe
      exact hsideeid
  have hcross_other : ∀ v ∈ M.vertIds, v ≠ a → v ≠ b → ∀ x ∈ A v,
      listNext (eeR2 M a b).1 v x = listNext M.edgeRec v x ∧
      listPrev (eeR2 M a b).1 v x = listPrev M.edgeRec v x := by
    intro v hv hvna hvnb x hx
    have hxeid : x ≠ M.nextEid := hmem_ne v hv x hx
    have h1 : listNext (eeR1 M a b).1 v x = listNext (eeE0 M a b) v x ∧
        listPrev (eeR1 M a b).1 v x = listPrev (eeE0 M a b) v x := by
      refine push_back_cross_agree (hrealE0 a ha) (hnotin a ha) v x ?_
      intro hmem
      rw [hvla]
      rcases hmem with hxa | hxe
      · rw [hE0data x hxeid]
        exact sides_differ hvna (hinv.incident v hv x hx) (hinv.incident a ha x hxa)
      · exact absurd hxe hxeid
    have h2 : listNext (eeR2 M a b).1 v x = listNext (eeR1 M a b).1 v x ∧
        listPrev (eeR2 M a b).1 v x = listPrev (eeR1 M a b).1 v x := by
      rw [heeR2]
      refine push_back_cross_agree hrb_R1 (hnotin b hb) v x ?_
      intro hmem
      rw [hvlb]
      have hdat : ((eeR1 M a b).1 x).v0 = (eeE0 M a b x).v0 ∧
          ((eeR1 M a b).1 x).v1 = (eeE0 M a b x).v1 ∧
          ((eeR1 M a b).1 x).m_index = (eeE0 M a b x).m_index :=
        push_back_data (eeE0 M a b) ((M.vertRec a).m_edges) M.nextEid x
      have hv0 : ((eeR1 M a b).1 x).v0 = (M.edgeRec x).v0 := by
        rw [hdat.1, hE0data x hxeid]
      have hv1 : ((eeR1 M a b).1 x).v1 = (M.edgeRec x).v1 := by
        rw [hdat.2.1, hE0data x hxeid]
      rcases hmem with hxb | hxe
      · refine sides_differ hvnb ?_ ?_
        · rcases hinv.incident v hv x hx with h | h
          · exact Or.inl (hv0.trans h)
          · exact Or.inr (hv1.trans h)
        · rcases hinv.incident b hb x hxb with h | h
          · exact Or.inl (hv0.trans h)
          · exact Or.inr (hv1.trans h)
      · exact absurd hxe hxeid
    have h3 : listNext (eeE0 M a b) v x = listNext M.edgeRec v x ∧
        listPrev (eeE0 M a b) v x = listPrev M.edgeRec v x :=
      agree_of_eq (hE0data x hxeid)
    exact ⟨h2.1.trans (h1.1.trans h3.1), h2.2.trans (h1.2.trans h3.2)⟩
  constructor
  · exact hinv.vnodup
  · show (M.edgeIds ++ [M.nextEid]).Nodup
    simp [List.nodup_append, hinv.enodup, List.disjoint_singleton]
    exact hefresh
  · exact hinv.vfresh
  · intro e he
    show e < M.nextEid + 1
    rcases List.mem_append.mp he with h | h
    · exact Nat.lt_succ_of_lt (hinv.efresh e h)
    · simp at h
      omega
  · intro v hv
    show ((eeV2 M a b) v).m_edges.m_vertex = v
    by_cases hvb : v = b
    · subst hvb
      unfold eeV2
      rw [updV_same]
      exact hR2v
    · unfold eeV2
      rw [updV_ne _ _ _ hvb]
      by_cases hva : v = a
      · subst hva
        unfold eeV1
        rw [updV_same]
        exact hR1v
      · unfold eeV1
        rw [updV_ne _ _ _ hva]
        exact hinv.owner v hv
  · intro v hv
    show Realizes (eeR2 M a b).1 ((eeV2 M a b) v).m_edges _
    by_cases hvb : v = b
    · subst hvb
      unfold eeV2
      rw [updV_same, updA_same]
      exact hrb2
    · unfold eeV2
      rw [updV_ne _ _ _ hvb, updA_ne _ _ _ hvb]
      by_cases hva : v = a
      · subst hva
        unfold eeV1
        rw [updV_same, updA_same]
        exact hra2
      · unfold eeV1
        rw [updV_ne _ _ _ hva, updA_ne _ _ _ hva]
        refine realizes_agree (fun x hx => ?_) (hinv.lists v hv)
        rw [hinv.owner v hv]
        exact hcross_other v hv hva hvb x hx
  · intro v hv e he
    show e ∈ M.edgeIds ++ [M.nextEid]
    by_cases hvb : v = b
    · subst hvb
      rw [updA_same] at he
      rcases List.mem_append.mp he with h | h
      · exact List.mem_append_left _ (hinv.mem_edges v hb e h)
      · exact List.mem_append_right _ h
    · rw [updA_ne _ _ _ hvb] at he
      by_cases hva : v = a
      · subst hva
        rw [updA_same] at he
        rcases List.mem_append.mp he with h | h
        · exact List.mem_append_left _ (hinv.mem_edges v ha e h)
        · exact List.mem_append_right _ h
      · rw [updA_ne _ _ _ hva] at he
        exact List.mem_append_left _ (hinv.mem_edges v hv e he)
  · intro v hv e he
    show ((eeR2 M a b).1 e).v0 = v ∨ ((eeR2 M a b).1 e).v1 = v
    by_cases hvb : v = b
    · subst hvb
      rw [updA_same] at he
      rcases List.mem_append.mp he with h | h
      · have hne := hmem_ne v hb e h
        rw [(hdataM e hne).1, (hdataM e hne).2]
        exact hinv.incident v hb e h
      · simp at h
        subst h
        exact Or.inr hdataEid.2
    · rw [updA_ne _ _ _ hvb] at he
      by_cases hva : v = a
      · subst hva
        rw [updA_same] at he
        rcases List.mem_append.mp he with h | h
        · have hne := hmem_ne v ha e h
          rw [(hdataM e hne).1, (hdataM e hne).2]
          exact hinv.incident v ha e h
        · simp at h
          subst h
          exact Or.inl hdataEid.1
      · rw [updA_ne _ _ _ hva] at he
        have hne := hmem_ne v hv e he
        rw [(hdataM e hne).1, (hdataM e hne).2]
        exact hinv.incident v hv e he
  · intro v hv e he hincv
    rcases List.mem_append.mp he with hold | hnew
    · have hne : e ≠ M.nextEid := fun h => hefresh (h ▸ hold)
      have hincv2 : (M.edgeRec e).v0 = v ∨ (M.edgeRec e).v1 = v := by
        rcases hincv with h | h
        · exact Or.inl (((hdataM e hne).1).symm.trans h)
        · exact Or.inr (((hdataM e hne).2).symm.trans h)
      have hmem := hinv.complete v hv e hold hincv2
      by_cases hvb : v = b
      · subst hvb
        rw [updA_same]
        exact List.mem_append_left _ hmem
      · rw [updA_ne _ _ _ hvb]
        by_cases hva : v = a
        · subst hva
          rw [updA_same]
          exact List.mem_append_left _ hmem
        · rw [updA_ne _ _ _ hva]
          exact hmem
    · simp at hnew
      subst hnew
      rcases hincv with h | h
      · have hva : a = v := hdataEid.1.symm.trans h
        rw [← hva]
        rw [updA_ne _ _ _ hab, updA_same]
        exact List.mem_append_right _ (by simp)
      · have hvb : b = v := hdataEid.2.symm.trans h
        rw [← hvb, updA_same]
        exact List.mem_append_right _ (by simp)
  · intro e he
    show ((eeR2 M a b).1 e).v0 ∈ M.vertIds ∧ ((eeR2 M a b).1 e).v1 ∈ M.vertIds
    rcases List.mem_append.mp he with hold | hnew
    · have hne : e ≠ M.nextEid := fun h => hefresh (h ▸ hold)
      rw [(hdataM e hne).1, (hdataM e hne).2]
      exact hinv.endpoints_live e hold
    · simp at hnew
      subst hnew
      rw [hdataEid.1, hdataEid.2]
      exact ⟨ha, hb⟩
  · intro e he
    show ((eeR2 M a b).1 e).v0 ≠ ((eeR2 M a b).1 e).v1
    rcases List.mem_append.mp he with hold | hnew
    · have hne : e ≠ M.nextEid := fun h => hefresh (h ▸ hold)
      rw [(hdataM e hne).1, (hdataM e hne).2]
      exact hinv.nondegen e hold
    · simp at hnew
      subst hnew
      rw [hdataEid.1, hdataEid.2]
      exact hab

/-- Erasing a live edge preserves the mesh invariant: the edge leaves both
endpoints' incidence cycles and the edge container. -/
theorem meshInv_edgeErase {M : BrepMesh} {A : Nat → List Nat} (hinv : MeshInv M A)
    {eid : Nat} (he : eid ∈ M.edgeIds) :
    MeshInv (edgeErase M eid)
      (updA (updA A (M.edgeRec eid).v0 ((A (M.edgeRec eid).v0).erase eid))
        (M.edgeRec eid).v1 ((A (M.edgeRec eid).v1).erase eid)) := by
  have hva_live : (M.edgeRec eid).v0 ∈ M.vertIds := (hinv.endpoints_live eid he).1
  have hvb_live : (M.edgeRec eid).v1 ∈ M.vertIds := (hinv.endpoints_live eid he).2
  have hvavb : (M.edgeRec eid).v0 ≠ (M.edgeRec eid).v1 := hinv.nondegen eid he
  have hvla : (M.vertRec (M.edgeRec eid).v0).m_edges.m_vertex = (M.edgeRec eid).v0 :=
    hinv.owner _ hva_live
  have hvlb : (M.vertRec (M.edgeRec eid).v1).m_edges.m_vertex = (M.edgeRec eid).v1 :=
    hinv.owner _ hvb_live
  have hmema : eid ∈ A (M.edgeRec eid).v0 :=
    hinv.complete _ hva_live eid he (Or.inl rfl)
  have hmemb : eid ∈ A (M.edgeRec eid).v1 :=
    hinv.complete _ hvb_live eid he (Or.inr rfl)
  have hr1 : Realizes (erR1 M eid).1 (erR1 M eid).2 ((A (M.edgeRec eid).v0).erase eid) :=
    realizes_remove (hinv.lists _ hva_live) hmema
  have hd1 : ∀ x, ((erR1 M eid).1 x).v0 = (M.edgeRec x).v0 ∧
      ((erR1 M eid).1 x).v1 = (M.edgeRec x).v1 ∧
      ((erR1 M eid).1 x).m_index = (M.edgeRec x).m_index := fun x =>
    remove_data M.edgeRec ((M.vertRec (M.edgeRec eid).v0).m_edges) eid x
  have hV1b : erV1 M eid (M.edgeRec eid).v1 = M.vertRec (M.edgeRec eid).v1 :=
    updV_ne _ _ _ (Ne.symm hvavb)
  have herR2 : erR2 M eid = remove (erR1 M eid).1
      ((M.vertRec (M.edgeRec eid).v1).m_edges) eid := by
    unfold erR2
    rw [hV1b]
  have hR1v : (erR1 M eid).2.m_vertex = (M.edgeRec eid).v0 :=
    (remove_vertex_eq _ _ _).trans hvla
  have hR2v : (erR2 M eid).2.m_vertex = (M.edgeRec eid).v1 := by
    rw [herR2]
    exact (remove_vertex_eq _ _ _).trans hvlb
  have hd2 : ∀ x, ((erR2 M eid).1 x).v0 = (M.edgeRec x).v0 ∧
      ((erR2 M eid).1 x).v1 = (M.edgeRec x).v1 ∧
      ((erR2 M eid).1 x).m_index = (M.edgeRec x).m_index := by
    intro x
    have h2 : ((erR2 M eid).1 x).v0 = ((erR1 M eid).1 x).v0 ∧
        ((erR2 M eid).1 x).v1 = ((erR1 M eid).1 x).v1 ∧
        ((erR2 M eid).1 x).m_index = ((erR1 M eid).1 x).m_index :=
      remove_data (erR1 M eid).1 ((erV1 M eid (M.edgeRec eid).v1).m_edges) eid x
    exact ⟨h2.1.trans (hd1 x).1, h2.2.1.trans (hd1 x).2.1, h2.2.2.trans (hd1 x).2.2⟩
  have hdfix : ∀ x, ((edgeErase M eid).edgeRec x).v0 = (M.edgeRec x).v0 ∧
      ((edgeErase M eid).edgeRec x).v1 = (M.edgeRec x).v1 := by
    intro x
    show ((upd (erR2 M eid).1 (M.edgeIds.getLastD 0)
      { (erR2 M eid).1 (M.edgeIds.getLastD 0) with
        m_index := (M.edgeRec eid).m_index } x).v0 = (M.edgeRec x).v0) ∧
      ((upd (erR2 M eid).1 (M.edgeIds.getLastD 0)
        { (erR2 M eid).1 (M.edgeIds.getLastD 0) with
          m_index := (M.edgeRec eid).m_index } x).v1 = (M.edgeRec x).v1)
    by_cases hx : x = M.edgeIds.getLastD 0
    · rw [hx, upd_same]
      exact ⟨(hd2 _).1, (hd2 _).2.1⟩
    · rw [upd_ne _ _ _ hx]
      exact ⟨(hd2 x).1, (hd2 x).2.1⟩
  have hfix_agree : ∀ w x, listNext (edgeErase M eid).edgeRec w x =
      listNext (erR2 M eid).1 w x ∧
      listPrev (edgeErase M eid).edgeRec w x = listPrev (erR2 M eid).1 w x := fun w x =>
    agree_index_fixup (erR2 M eid).1 (M.edgeIds.getLastD 0) (M.edgeRec eid).m_index w x
  have hrb_R1 : Realizes (erR1 M eid).1 ((M.vertRec (M.edgeRec eid).v1).m_edges)
      (A (M.edgeRec eid).v1) := by
    refine realizes_agree (fun x hx => ?_) (hinv.lists _ hvb_live)
    rw [hvlb]
    refine remove_cross_agree (hinv.lists _ hva_live) hmema (M.edgeRec eid).v1 x ?_
    intro hxa
    rw [hvla]
    exact sides_differ (Ne.symm hvavb) (hinv.incident _ hvb_live x hx)
      (hinv.incident _ hva_live x hxa)
  have hr2 : Realizes (erR2 M eid).1 (erR2 M eid).2 ((A (M.edgeRec eid).v1).erase eid) := by
    rw [herR2]
    exact realizes_remove hrb_R1 hmemb
  have hra2 : Realizes (erR2 M eid).1 (erR1 M eid).2 ((A (M.edgeRec eid).v0).erase eid) := by
    refine realizes_agree (fun x hx => ?_) hr1
    rw [hR1v, herR2]
    refine remove_cross_agree hrb_R1 hmemb (M.edgeRec eid).v0 x ?_
    intro hxb
    rw [hvlb]
    have hxa : x ∈ A (M.edgeRec eid).v0 := List.mem_of_mem_erase hx
    refine sides_differ hvavb ?_ ?_
    · rcases hinv.incident _ hva_live x hxa with h | h
      · exact Or.inl ((hd1 x).1.trans h)
      · exact Or.inr ((hd1 x).2.1.trans h)
    · rcases hinv.incident _ hvb_live x hxb with h | h
      · exact Or.inl ((hd1 x).1.trans h)
      · exact Or.inr ((hd1 x).2.1.trans h)
  have hcross_other : ∀ v ∈ M.vertIds, v ≠ (M.edgeRec eid).v0 → v ≠ (M.edgeRec eid).v1 →
      ∀ x ∈ A v,
      listNext (erR2 M eid).1 v x = listNext M.edgeRec v x ∧
      listPrev (erR2 M eid).1 v x = listPrev M.edgeRec v x := by
    intro v hv hvna hvnb x hx
    have h1 : listNext (erR1 M eid).1 v x = listNext M.edgeRec v x ∧
        listPrev (erR1 M eid).1 v x = listPrev M.edgeRec v x := by
      refine remove_cross_agree (hinv.lists _ hva_live) hmema v x ?_
      intro hxa
      rw [hvla]
      exact sides_differ hvna (hinv.incident v hv x hx) (hinv.incident _ hva_live x hxa)
    have h2 : listNext (erR2 M eid).1 v x = listNext (erR1 M eid).1 v x ∧
        listPrev (erR2 M eid).1 v x = listPrev (erR1 M eid).1 v x := by
      rw [herR2]
      refine remove_cross_agree hrb_R1 hmemb v x ?_
      intro hxb
      rw [hvlb]
      refine sides_differ hvnb ?_ ?_
      · rcases hinv.incident v hv x hx with h | h
        · exact Or.inl ((hd1 x).1.trans h)
        · exact Or.inr ((hd1 x).2.1.trans h)
      · rcases hinv.incident _ hvb_live x hxb with h | h
        · exact Or.inl ((hd1 x).1.trans h)
        · exact Or.inr ((hd1 x).2.1.trans h)
    exact ⟨h2.1.trans h1.1, h2.2.trans h1.2⟩
  have heid_only : ∀ v ∈ M.vertIds, v ≠ (M.edgeRec eid).v0 → v ≠ (M.edgeRec eid).v1 →
      eid ∉ A v := by
    intro v hv hvna hvnb hmem
    rcases hinv.incident v hv eid hmem with h | h
    · exact hvna h.symm
    · exact hvnb h.symm
  constructor
  · exact hinv.vnodup
  · exact swapPop_nodup hinv.enodup
  · exact hinv.vfresh
  · intro e2 he2
    have := (mem_swapPop hinv.enodup he e2).mp he2
    exact hinv.efresh e2 this.1
  · intro v hv
    show ((erV2 M eid) v).m_edges.m_vertex = v
    by_cases hvb : v = (M.edgeRec eid).v1
    · subst hvb
      unfold erV2
      rw [updV_same]
      exact hR2v
    · unfold erV2
      rw [updV_ne _ _ _ hvb]
      by_cases hva : v = (M.edgeRec eid).v0
      · subst hva
        unfold erV1
        rw [updV_same]
        exact hR1v
      · unfold erV1
        rw [updV_ne _ _ _ hva]
        exact hinv.owner v hv
  · intro v hv
    show Realizes (edgeErase M eid).edgeRec ((erV2 M eid) v).m_edges _
    by_cases hvb : v = (M.edgeRec eid).v1
    · subst hvb
      unfold erV2
      rw [updV_same, updA_same]
      exact realizes_agree (fun x _ => hfix_agree _ x) hr2
    · unfold erV2
      rw [updV_ne _ _ _ hvb, updA_ne _ _ _ hvb]
      by_cases hva : v = (M.edgeRec eid).v0
      · subst hva
        unfold erV1
        rw [updV_same, updA_same]
        exact realizes_agree (fun x _ => hfix_agree _ x) hra2
      · unfold erV1
        rw [updV_ne _ _ _ hva, updA_ne _ _ _ hva]
        refine realizes_agree (fun x hx => ?_) (hinv.lists v hv)
        rw [hinv.owner v hv]
        exact ⟨(hfix_agree v x).1.trans (hcross_other v hv hva hvb x hx).1,
          (hfix_agree v x).2.trans (hcross_other v hv hva hvb x hx).2⟩
  · intro v hv e2 he2
    show e2 ∈ swapPop M.edgeIds eid
    by_cases hvb : v = (M.edgeRec eid).v1
    · subst hvb
      rw [updA_same] at he2
      have hnd := (hinv.lists _ hvb_live).1
      have := (List.Nodup.mem_erase_iff hnd).mp he2
      exact (mem_swapPop hinv.enodup he e2).mpr
        ⟨hinv.mem_edges _ hvb_live e2 this.2, this.1⟩
    · rw [updA_ne _ _ _ hvb] at he2
      by_cases hva : v = (M.edgeRec eid).v0
      · subst hva
        rw [updA_same] at he2
        have hnd := (hinv.lists _ hva_live).1
        have := (List.Nodup.mem_erase_iff hnd).mp he2
        exact (mem_swapPop hinv.enodup he e2).mpr
          ⟨hinv.mem_edges _ hva_live e2 this.2, this.1⟩
      · rw [updA_ne _ _ _ hva] at he2
        refine (mem_swapPop hinv.enodup he e2).mpr
          ⟨hinv.mem_edges v hv e2 he2, ?_⟩
        intro hcon
        exact heid_only v hv hva hvb (hcon ▸ he2)
  · intro v hv e2 he2
    show ((edgeErase M eid).edgeRec e2).v0 = v ∨ ((edgeErase M eid).edgeRec e2).v1 = v
    rw [(hdfix e2).1, (hdfix e2).2]
    by_cases hvb : v = (M.edgeRec eid).v1
    · subst hvb
      rw [updA_same] at he2
      exact hinv.incident _ hvb_live e2 (List.mem_of_mem_erase he2)
    · rw [updA_ne _ _ _ hvb] at he2
      by_cases hva : v = (M.edgeRec eid).v0
      · subst hva
        rw [updA_same] at he2
        exact hinv.incident _ hva_live e2 (List.mem_of_mem_erase he2)
      · rw [updA_ne _ _ _ hva] at he2
        exact hinv.incident v hv e2 he2
  · intro v hv e2 he2 hincv
    have hmem2 := (mem_swapPop hinv.enodup he e2).mp he2
    have hincv2 : (M.edgeRec e2).v0 = v ∨ (M.edgeRec e2).v1 = v := by
      rcases hincv with h | h
      · exact Or.inl ((hdfix e2).1.symm.trans h)
      · exact Or.inr ((hdfix e2).2.symm.trans h)
    have hin := hinv.complete v hv e2 hmem2.1 hincv2
    by_cases hvb : v = (M.edgeRec eid).v1
    · subst hvb
      rw [updA_same]
      exact (List.Nodup.mem_erase_iff (hinv.lists _ hvb_live).1).mpr ⟨hmem2.2, hin⟩
    · rw [updA_ne _ _ _ hvb]
      by_cases hva : v = (M.edgeRec eid).v0
      · subst hva
        rw [updA_same]
        exact (List.Nodup.mem_erase_iff (hinv.lists _ hva_live).1).mpr ⟨hmem2.2, hin⟩
      · rw [updA_ne _ _ _ hva]
        exact hin
  · intro e2 he2
    have hmem2 := (mem_swapPop hinv.enodup he e2).mp he2
    show ((edgeErase M eid).edgeRec e2).v0 ∈ M.vertIds ∧
      ((edgeErase M eid).edgeRec e2).v1 ∈ M.vertIds
    rw [(hdfix e2).1, (hdfix e2).2]
    exact hinv.endpoints_live e2 hmem2.1
  · intro e2 he2
    have hmem2 := (mem_swapPop hinv.enodup he e2).mp he2
    show ((edgeErase M eid).edgeRec e2).v0 ≠ ((edgeErase M eid).edgeRec e2).v1
    rw [(hdfix e2).1, (hdfix e2).2]
    exact hinv.nondegen e2 hmem2.1

/-- Under `Realizes`, `back()` on a non-empty incidence list returns the
last member (the head's predecessor). -/
theorem velBack_realizes {E : EdgeStore} {L : BrepVertexEdgeList} {es : List Nat}
    (hr : Realizes E L es) (hne : es ≠ []) :
    velBack E L = some (es.getLastD 0) := by
  have hh : L.m_head = some (es.headD 0) := by
    rw [hr.2.2.1 hne, head?_eq_headD hne]
  have hwrap := hr.2.2.2.2 (es.getLastD 0) (es.headD 0)
    (getLast?_eq_getLastD hne) (head?_eq_headD hne)
  unfold velBack
  rw [hh]
  exact hwrap.2

/-- The empty mesh satisfies the invariant with the everywhere-empty
abstraction. -/
theorem meshInv_empty : MeshInv emptyMesh (fun _ => []) := by
  refine ⟨List.nodup_nil, List.nodup_nil, ?_, ?_, ?_, ?_, ?_, ?_, ?_, ?_, ?_⟩ <;>
    intro x hx <;> simp [emptyMesh] at hx

/-- Running the drain loop of `brep_vertex_container::erase` with fuel
covering the vertex's incidence count erases every edge incident to the
vertex, preserves the invariant, and leaves the vertex container untouched. -/
theorem eraseVertexLoop_inv (vid : Nat) :
    ∀ fuel (M : BrepMesh) (A : Nat → List Nat), MeshInv M A → vid ∈ M.vertIds →
    (A vid).length ≤ fuel →
    ∃ A2, MeshInv (eraseVertexLoop vid fuel M) A2 ∧ A2 vid = [] ∧
      (eraseVertexLoop vid fuel M).vertIds = M.vertIds := by
  intro fuel
  induction fuel with
  | zero =>
    intro M A hinv hv hlen
    exact ⟨A, hinv, List.eq_nil_of_length_eq_zero (Nat.le_zero.mp hlen), rfl⟩
  | succ fuel ih =>
    intro M A hinv hv hlen
    have hsz : (M.vertRec vid).m_edges.m_size = (A vid).length :=
      (hinv.lists vid hv).2.1
    by_cases hnil : A vid = []
    · have h0 : (M.vertRec vid).m_edges.m_size = 0 := by
        rw [hsz, hnil]
        rfl
      have hstop : eraseVertexLoop vid (fuel + 1) M = M := by
        unfold eraseVertexLoop
        rw [if_pos h0]
      rw [hstop]
      exact ⟨A, hinv, hnil, rfl⟩
    · have hne0 : (M.vertRec vid).m_edges.m_size ≠ 0 := fun h =>
        hnil (List.length_eq_zero.mp (hsz.symm.trans h))
      have hvel : velBack M.edgeRec ((M.vertRec vid).m_edges) =
          some ((A vid).getLastD 0) :=
        velBack_realizes (hinv.lists vid hv) hnil
      have hemem : (A vid).getLastD 0 ∈ A vid := getLastD_mem hnil
      have heid : (A vid).getLastD 0 ∈ M.edgeIds := hinv.mem_edges vid hv _ hemem
      have hinv2 := meshInv_edgeErase hinv heid
      have hvv := hinv.incident vid hv _ hemem
      have hA' : (updA (updA A (M.edgeRec ((A vid).getLastD 0)).v0
          ((A (M.edgeRec ((A vid).getLastD 0)).v0).erase ((A vid).getLastD 0)))
          (M.edgeRec ((A vid).getLastD 0)).v1
          ((A (M.edgeRec ((A vid).getLastD 0)).v1).erase ((A vid).getLastD 0))) vid
          = (A vid).erase ((A vid).getLastD 0) := by
        rcases hvv with h | h
        · have hnb : vid ≠ (M.edgeRec ((A vid).getLastD 0)).v1 := fun hc =>
            hinv.nondegen _ heid (h.trans hc)
          rw [updA_ne _ _ _ hnb]
          simp only [updA]
          rw [if_pos h.symm, h]
        · simp only [updA]
          rw [if_pos h.symm, h]
      have hlen2 : ((updA (updA A (M.edgeRec ((A vid).getLastD 0)).v0
          ((A (M.edgeRec ((A vid).getLastD 0)).v0).erase ((A vid).getLastD 0)))
          (M.edgeRec ((A vid).getLastD 0)).v1
          ((A (M.edgeRec ((A vid).getLastD 0)).v1).erase ((A vid).getLastD 0))) vid).length
          ≤ fuel := by
        rw [hA', List.length_erase_of_mem hemem]
        omega
      have hv2 : vid ∈ (edgeErase M ((A vid).getLastD 0)).vertIds := hv
      obtain ⟨A2, h2, hA2, hvids⟩ := ih (edgeErase M ((A vid).getLastD 0)) _ hinv2 hv2 hlen2
      have hstep : eraseVertexLoop vid (fuel + 1) M =
          eraseVertexLoop vid fuel (edgeErase M ((A vid).getLastD 0)) := by
        show (if (M.vertRec vid).m_edges.m_size = 0 then M
          else
            match velBack M.edgeRec (M.vertRec vid).m_edges with
            | none => M
            | some e => eraseVertexLoop vid fuel (edgeErase M e)) =
          eraseVertexLoop vid fuel (edgeErase M ((A vid).getLastD 0))
        rw [if_neg hne0, hvel]
      rw [hstep]
      exact ⟨A2, h2, hA2, hvids⟩

/-- `brep_vertex_container::erase` preserves the mesh invariant: after the
cascading erase, the vertex is gone from the container, no remaining edge
references it, and the drain really ran to completion (the vertex's
incidence list was empty when the record was removed). -/
theorem meshInv_vertexErase {M : BrepMesh} {A : Nat → List Nat} (hinv : MeshInv M A)
    {vid : Nat} (hv : vid ∈ M.vertIds) :
    ∃ A2, MeshInv (vertexErase M vid) A2 ∧
      (vertexErase M vid).vertIds = swapPop M.vertIds vid ∧
      vid ∉ (vertexErase M vid).vertIds ∧
      ((eraseVertexLoop vid ((M.vertRec vid).m_edges).m_size M).vertRec vid).m_edges.m_size
        = 0 ∧
      (∀ e ∈ (vertexErase M vid).edgeIds,
        ((vertexErase M vid).edgeRec e).v0 ≠ vid ∧
        ((vertexErase M vid).edgeRec e).v1 ≠ vid) := by
  have hsz : (M.vertRec vid).m_edges.m_size = (A vid).length := (hinv.lists vid hv).2.1
  obtain ⟨A2, hinv2, hA2, hvids⟩ :=
    eraseVertexLoop_inv vid ((M.vertRec vid).m_edges).m_size M A hinv hv (le_of_eq hsz.symm)
  have hv2 : vid ∈ (eraseVertexLoop vid ((M.vertRec vid).m_edges).m_size M).vertIds := by
    rw [hvids]
    exact hv
  have hsz2 : ((eraseVertexLoop vid ((M.vertRec vid).m_edges).m_size M).vertRec
      vid).m_edges.m_size = 0 := by
    rw [(hinv2.lists vid hv2).2.1, hA2]
    rfl
  have hnoe : ∀ e ∈ (eraseVertexLoop vid ((M.vertRec vid).m_edges).m_size M).edgeIds,
      ((eraseVertexLoop vid ((M.vertRec vid).m_edges).m_size M).edgeRec e).v0 ≠ vid ∧
      ((eraseVertexLoop vid ((M.vertRec vid).m_edges).m_size M).edgeRec e).v1 ≠ vid := by
    intro e he
    constructor
    · intro hcon
      have := hinv2.complete vid hv2 e he (Or.inl hcon)
      rw [hA2] at this
      simp at this
    · intro hcon
      have := hinv2.complete vid hv2 e he (Or.inr hcon)
      rw [hA2] at this
      simp at this
  refine ⟨A2, ?_, ?_, ?_, hsz2, ?_⟩
  · constructor
    · show (swapPop (eraseVertexLoop vid ((M.vertRec vid).m_edges).m_size M).vertIds
        vid).Nodup
      exact swapPop_nodup hinv2.vnodup
    · exact hinv2.enodup
    · intro v hvm
      have := (mem_swapPop hinv2.vnodup hv2 v).mp hvm
      exact hinv2.vfresh v this.1
    · exact hinv2.efresh
    · intro v hvm
      have hm := (mem_swapPop hinv2.vnodup hv2 v).mp hvm
      show ((updV (eraseVertexLoop vid ((M.vertRec vid).m_edges).m_size M).vertRec
        ((eraseVertexLoop vid ((M.vertRec vid).m_edges).m_size M).vertIds.getLastD 0)
        _ v).m_edges.m_vertex = v)
      by_cases hmv : v =
          (eraseVertexLoop vid ((M.vertRec vid).m_edges).m_size M).vertIds.getLastD 0
      · rw [hmv, updV_same]
        exact hmv ▸ hinv2.owner v hm.1
      · rw [updV_ne _ _ _ hmv]
        exact hinv2.owner v hm.1
    · intro v hvm
      have hm := (mem_swapPop hinv2.vnodup hv2 v).mp hvm
      show Realizes (eraseVertexLoop vid ((M.vertRec vid).m_edges).m_size M).edgeRec
        ((updV (eraseVertexLoop vid ((M.vertRec vid).m_edges).m_size M).vertRec
          ((eraseVertexLoop vid ((M.vertRec vid).m_edges).m_size M).vertIds.getLastD 0)
          _ v).m_edges) (A2 v)
      by_cases hmv : v =
          (eraseVertexLoop vid ((M.vertRec vid).m_edges).m_size M).vertIds.getLastD 0
      · rw [hmv, updV_same]
        exact hmv ▸ hinv2.lists v hm.1
      · rw [updV_ne _ _ _ hmv]
        exact hinv2.lists v hm.1
    · intro v hvm
      have hm := (mem_swapPop hinv2.vnodup hv2 v).mp hvm
      exact hinv2.mem_edges v hm.1
    · intro v hvm
      have hm := (mem_swapPop hinv2.vnodup hv2 v).mp hvm
      exact hinv2.incident v hm.1
    · intro v hvm
      have hm := (mem_swapPop hinv2.vnodup hv2 v).mp hvm
      exact hinv2.complete v hm.1
    · intro e he
      have hlive := hinv2.endpoints_live e he
      have hne := hnoe e he
      exact ⟨(mem_swapPop hinv2.vnodup hv2 _).mpr ⟨hlive.1, hne.1⟩,
        (mem_swapPop hinv2.vnodup hv2 _).mpr ⟨hlive.2, hne.2⟩⟩
    · exact hinv2.nondegen
  · show swapPop (eraseVertexLoop vid ((M.vertRec vid).m_edges).m_size M).vertIds vid
      = swapPop M.vertIds vid
    rw [hvids]
  · intro hcon
    have := (mem_swapPop hinv2.vnodup hv2 vid).mp hcon
    exact this.2 rfl
  · exact hnoe

/-- Running the clear loop with fuel covering the vertex count empties the
vertex container and preserves the invariant. -/
theorem vertexClearLoop_inv :
    ∀ fuel (M : BrepMesh) (A : Nat → List Nat), MeshInv M A → M.vertIds.length ≤ fuel →
    (vertexClearLoop fuel M).vertIds = [] ∧ ∃ A2, MeshInv (vertexClearLoop fuel M) A2 := by
  intro fuel
  induction fuel with
  | zero =>
    intro M A hinv hlen
    exact ⟨List.eq_nil_of_length_eq_zero (Nat.le_zero.mp hlen), A, hinv⟩
  | succ fuel ih =>
    intro M A hinv hlen
    by_cases hnil : M.vertIds = []
    · have hstop : vertexClearLoop (fuel + 1) M = M := by
        show (if M.vertIds = [] then M
          else vertexClearLoop fuel (vertexErase M (M.vertIds.getLastD 0))) = M
        rw [if_pos hnil]
      rw [hstop]
      exact ⟨hnil, A, hinv⟩
    · have hmem : M.vertIds.getLastD 0 ∈ M.vertIds := getLastD_mem hnil
      obtain ⟨A2, hinv2, hvids, _, _, _⟩ := meshInv_vertexErase hinv hmem
      have hlen2 : (vertexErase M (M.vertIds.getLastD 0)).vertIds.length ≤ fuel := by
        rw [hvids, swapPop_length hmem]
        omega
      have hstep : vertexClearLoop (fuel + 1) M =
          vertexClearLoop fuel (vertexErase M (M.vertIds.getLastD 0)) := by
        show (if M.vertIds = [] then M
          else vertexClearLoop fuel (vertexErase M (M.vertIds.getLastD 0))) =
          vertexClearLoop fuel (vertexErase M (M.vertIds.getLastD 0))
        rw [if_neg hnil]
      rw [hstep]
      exact ih (vertexErase M (M.vertIds.getLastD 0)) A2 hinv2 hlen2

/-- One vertex, built by the public construction operation. -/
def meshV1 : BrepMesh := (vertexEmplace emptyMesh).1

/-- Two vertices. -/
def meshV2 : BrepMesh := (vertexEmplace meshV1).1

/-- Two vertices and one edge between them. -/
def mesh2 : BrepMesh := (edgeEmplace meshV2 0 1).1

/-- Incidence abstraction after the first vertex emplace. -/
def mesh1A : Nat → List Nat := updA (fun _ => []) 0 []

/-- Incidence abstraction after the second vertex emplace. -/
def mesh2VA : Nat → List Nat := updA mesh1A 1 []

/-- Incidence abstraction of `mesh2`. -/
def mesh2A : Nat → List Nat :=
  updA (updA mesh2VA 0 (mesh2VA 0 ++ [0])) 1 (mesh2VA 1 ++ [0])

theorem meshV1_inv : MeshInv meshV1 mesh1A := meshInv_vertexEmplace meshInv_empty

theorem meshV2_inv : MeshInv meshV2 mesh2VA := meshInv_vertexEmplace meshV1_inv

theorem mesh2_inv : MeshInv mesh2 mesh2A := by
  have h0 : (0 : Nat) ∈ meshV2.vertIds := by decide
  have h1 : (1 : Nat) ∈ meshV2.vertIds := by decide
  exact meshInv_edgeEmplace meshV2_inv h0 h1 (by decide)

/-- Three vertices. -/
def meshV3 : BrepMesh := (vertexEmplace meshV2).1

/-- Three vertices, an edge from vertex 0 to vertex 1. -/
def mesh3a : BrepMesh := (edgeEmplace meshV3 0 1).1

/-- Three vertices, edges (0,1) and (0,2): vertex 0 has two incident
edges. -/
def mesh3 : BrepMesh := (edgeEmplace mesh3a 0 2).1

/-- Meshes reachable from the empty mesh by the kernel's public operations
(vertex emplace, edge emplace between two distinct live vertices, edge
erase, cascading vertex erase, container clear). -/
inductive MeshReach : BrepMesh → Prop where
  | empty : MeshReach emptyMesh
  | addVertex {M : BrepMesh} : MeshReach M → MeshReach (vertexEmplace M).1
  | addEdge {M : BrepMesh} {a b : Nat} : MeshReach M → a ∈ M.vertIds → b ∈ M.vertIds →
      a ≠ b → MeshReach (edgeEmplace M a b).1
  | eraseEdge {M : BrepMesh} {e : Nat} : MeshReach M → e ∈ M.edgeIds →
      MeshReach (edgeErase M e)
  | eraseVertex {M : BrepMesh} {v : Nat} : MeshReach M → v ∈ M.vertIds →
      MeshReach (vertexErase M v)
  | clear {M : BrepMesh} : MeshReach M → MeshReach (vertexContainerClear M)

/-- Every reachable mesh satisfies the kernel invariant for some incidence
abstraction. -/
theorem meshReach_inv {M : BrepMesh} (h : MeshReach M) : ∃ A, MeshInv M A := by
  induction h with
  | empty => exact ⟨fun _ => [], meshInv_empty⟩
  | addVertex _ ih =>
    obtain ⟨A, hA⟩ := ih
    exact ⟨_, meshInv_vertexEmplace hA⟩
  | addEdge _ ha hb hab ih =>
    obtain ⟨A, hA⟩ := ih
    exact ⟨_, meshInv_edgeEmplace hA ha hb hab⟩
  | eraseEdge _ he ih =>
    obtain ⟨A, hA⟩ := ih
    exact ⟨_, meshInv_edgeErase hA he⟩
  | eraseVertex _ hv ih =>
    obtain ⟨A, hA⟩ := ih
    obtain ⟨A2, h2, _⟩ := meshInv_vertexErase hA hv
    exact ⟨A2, h2⟩
  | clear _ ih =>
    obtain ⟨A, hA⟩ := ih
    obtain ⟨_, A2, h2⟩ := vertexClearLoop_inv _ _ A hA (le_refl _)
    exact ⟨A2, h2⟩

theorem meshV1_reach : MeshReach meshV1 := MeshReach.addVertex MeshReach.empty

theorem meshV2_reach : MeshReach meshV2 := MeshReach.addVertex meshV1_reach

theorem mesh2_reach : MeshReach mesh2 :=
  MeshReach.addEdge meshV2_reach (by decide) (by decide) (by decide)

/-- C2, counterexample to the zero-count clause: a mesh reached by public
operations only (add two vertices, add an edge, erase that edge) in which
vertex 0 has incident-edge count zero yet a non-null (stale) head
reference: `remove` advances the head to the removed edge's successor,
which for the last remaining (self-successor) edge is the removed edge
itself, and never nulls it. -/
theorem C2_zero_count_stale_head_counterexample :
    MeshReach (edgeErase mesh2 0) ∧
    ((edgeErase mesh2 0).vertRec 0).m_edges.m_size = 0 ∧
    ((edgeErase mesh2 0).vertRec 0).m_edges.m_head ≠ none := by
  refine ⟨MeshReach.eraseEdge mesh2_reach (by decide), by decide, by decide⟩

/-- C2 (amended): in every mesh reachable by the kernel's operations, every
live vertex with non-zero incident-edge count has a set head from which
following the next link on this vertex's side exactly count times returns
to the head, and the edges visited along the way are count distinct edges.
(The claim's zero-count clause — that the head reference is then
null/empty — is dropped: `remove` leaves a stale head behind, see the
counterexample.) -/
theorem C2_circular_walk {M : BrepMesh} (hM : MeshReach M) {v : Nat}
    (hv : v ∈ M.vertIds) (hne : (M.vertRec v).m_edges.m_size ≠ 0) :
    ∃ h, (M.vertRec v).m_edges.m_head = some h ∧
      walkSteps M.edgeRec v ((M.vertRec v).m_edges.m_size) (some h) = some h ∧
      (visitedEdges M.edgeRec v ((M.vertRec v).m_edges.m_size) (some h)).Nodup ∧
      (visitedEdges M.edgeRec v ((M.vertRec v).m_edges.m_size) (some h)).length =
        (M.vertRec v).m_edges.m_size := by
  obtain ⟨A, hinv⟩ := meshReach_inv hM
  have hr := hinv.lists v hv
  have hsz : (M.vertRec v).m_edges.m_size = (A v).length := hr.2.1
  have hnil : A v ≠ [] := fun h => hne (by rw [hsz, h]; rfl)
  have hown : (M.vertRec v).m_edges.m_vertex = v := hinv.owner v hv
  obtain ⟨hhead, hwalk, hvis⟩ := realizes_walk hr hnil
  rw [hown] at hwalk hvis
  refine ⟨(A v).headD 0, hhead, ?_, ?_, ?_⟩
  · rw [hsz]
    exact hwalk
  · rw [hsz, hvis]
    exact hr.1
  · rw [hsz, hvis]

/-- C2 witness: the walk property evaluated on the concrete two-vertex,
one-edge mesh at vertex 0. -/
theorem C2_circular_walk_witness :
    (0 ∈ mesh2.vertIds) ∧ ((mesh2.vertRec 0).m_edges.m_size ≠ 0) ∧
    (∃ h, (mesh2.vertRec 0).m_edges.m_head = some h ∧
      walkSteps mesh2.edgeRec 0 ((mesh2.vertRec 0).m_edges.m_size) (some h) = some h ∧
      (visitedEdges mesh2.edgeRec 0 ((mesh2.vertRec 0).m_edges.m_size) (some h)).Nodup ∧
      (visitedEdges mesh2.edgeRec 0 ((mesh2.vertRec 0).m_edges.m_size) (some h)).length =
        (mesh2.vertRec 0).m_edges.m_size) :=
  ⟨by decide, by decide, C2_circular_walk mesh2_reach (by decide) (by decide)⟩

/-- Global mutual-link symmetry over a mesh's live edges: whenever a live
edge `a`'s next reference on the side of one of its endpoint vertices `v`
is `b`, edge `b`'s previous reference on its own side touching `v` is `a`. -/
def GlobalSym (M : BrepMesh) : Prop :=
  ∀ a ∈ M.edgeIds, ∀ v : Nat, ((M.edgeRec a).v0 = v ∨ (M.edgeRec a).v1 = v) →
    ∀ b : Nat, listNext M.edgeRec v a = some b → listPrev M.edgeRec v b = some a

/-- C3, counterexample: after the raw `remove` of edge 0 from vertex 0's
list in a mesh where vertex 0 has incident edges 0 and 1, the removed
edge's own outgoing next link still names edge 1 (it is left stale), while
edge 1's previous link has been re-linked past it — so mutual link symmetry
does not hold for all edges in the mesh immediately after a `remove`. -/
theorem C3_remove_symmetry_counterexample :
    (0 ∈ mesh3.edgeIds) ∧ (1 ∈ mesh3.edgeIds) ∧ ((mesh3.edgeRec 0).v0 = 0) ∧
    listNext (remove mesh3.edgeRec ((mesh3.vertRec 0).m_edges) 0).1 0 0 = some 1 ∧
    ¬ listPrev (remove mesh3.edgeRec ((mesh3.vertRec 0).m_edges) 0).1 0 1 = some 0 := by
  decide

/-- C3 (amended): in every mesh reachable by the kernel's operations — in
particular before and after each complete operation — mutual link symmetry
holds for the live edges: if a live edge's next reference on the side of
one of its endpoints is `b`, then `b`'s previous reference on its side
touching that endpoint names the first edge.  (Unrestricted to live edges
the claim fails: the raw `remove` leaves the removed edge's own outgoing
links stale, see the counterexample.) -/
theorem C3_mutual_symmetry {M : BrepMesh} (hM : MeshReach M) : GlobalSym M := by
  obtain ⟨A, hinv⟩ := meshReach_inv hM
  intro a ha v hvinc b hnext
  have hv : v ∈ M.vertIds := by
    rcases hvinc with h | h
    · exact h ▸ (hinv.endpoints_live a ha).1
    · exact h ▸ (hinv.endpoints_live a ha).2
  have hmem : a ∈ A v := hinv.complete v hv a ha hvinc
  have hown : (M.vertRec v).m_edges.m_vertex = v := hinv.owner v hv
  obtain ⟨b2, hnb, _, hpb⟩ := realizes_next_mem (hinv.lists v hv) hmem
  rw [hown] at hnb hpb
  rw [hnb] at hnext
  obtain rfl := Option.some_inj.mp hnext
  exact hpb

/-- C3 witness: mutual link symmetry on the concrete two-vertex, one-edge
mesh. -/
theorem C3_mutual_symmetry_witness : GlobalSym mesh2 := C3_mutual_symmetry mesh2_reach

/-- C5: `brep_vertex_container::erase` first drains the vertex's incidence
list by repeatedly erasing its last incident edge — so the incidence list
is empty (count zero) when the vertex record is removed, which happens only
afterwards, as the definitional sequencing conjunct records — and then no
edge remaining in the mesh references the vertex and the vertex is no
longer present in the vertex container. -/
theorem C5_cascading_erase {M : BrepMesh} {A : Nat → List Nat} (hinv : MeshInv M A)
    {vid : Nat} (hv : vid ∈ M.vertIds) :
    (∀ e ∈ (vertexErase M vid).edgeIds,
      ((vertexErase M vid).edgeRec e).v0 ≠ vid ∧
      ((vertexErase M vid).edgeRec e).v1 ≠ vid) ∧
    vid ∉ (vertexErase M vid).vertIds ∧
    ((eraseVertexLoop vid ((M.vertRec vid).m_edges).m_size M).vertRec vid).m_edges.m_size
      = 0 ∧
    vertexErase M vid =
      vertexContainerErase (eraseVertexLoop vid ((M.vertRec vid).m_edges).m_size M) vid := by
  obtain ⟨A2, _, _, hnotin, hsz0, hnoe⟩ := meshInv_vertexErase hinv hv
  exact ⟨hnoe, hnotin, hsz0, rfl⟩

/-- C5 witness: cascading erase of vertex 0 in the concrete two-vertex,
one-edge mesh. -/
theorem C5_cascading_erase_witness :
    (0 ∈ mesh2.vertIds) ∧
    ((∀ e ∈ (vertexErase mesh2 0).edgeIds,
      ((vertexErase mesh2 0).edgeRec e).v0 ≠ 0 ∧
      ((vertexErase mesh2 0).edgeRec e).v1 ≠ 0) ∧
    0 ∉ (vertexErase mesh2 0).vertIds ∧
    ((eraseVertexLoop 0 ((mesh2.vertRec 0).m_edges).m_size mesh2).vertRec
      0).m_edges.m_size = 0 ∧
    vertexErase mesh2 0 =
      vertexContainerErase (eraseVertexLoop 0 ((mesh2.vertRec 0).m_edges).m_size mesh2) 0) :=
  ⟨by decide, C5_cascading_erase mesh2_inv (by decide)⟩

/-- C6: clearing the vertex container empties it — size zero, empty true,
and (transitively, because each vertex erase first erases that vertex's
incident edges) no edge remains — clear is idempotent, and clear of an
already-empty container is a no-op. -/
theorem C6_clear_idempotent {M : BrepMesh} {A : Nat → List Nat} (hinv : MeshInv M A) :
    vertexCount (vertexContainerClear M) = 0 ∧
    vertexContainerEmpty (vertexContainerClear M) = true ∧
    (vertexContainerClear M).edgeIds = [] ∧
    vertexContainerClear (vertexContainerClear M) = vertexContainerClear M ∧
    (M.vertIds = [] → vertexContainerClear M = M) := by
  obtain ⟨hnil, A2, hinv2⟩ := vertexClearLoop_inv M.vertIds.length M A hinv (le_refl _)
  have hnoop : ∀ M2 : BrepMesh, M2.vertIds = [] → vertexContainerClear M2 = M2 := by
    intro M2 h2
    show vertexClearLoop M2.vertIds.length M2 = M2
    rw [h2]
    rfl
  have hcount : vertexCount (vertexContainerClear M) = 0 := by
    show (vertexClearLoop M.vertIds.length M).vertIds.length = 0
    rw [hnil]
    rfl
  have hempty : vertexContainerEmpty (vertexContainerClear M) = true := by
    show (vertexClearLoop M.vertIds.length M).vertIds.isEmpty = true
    rw [hnil]
    rfl
  have hedge : (vertexContainerClear M).edgeIds = [] := by
    show (vertexClearLoop M.vertIds.length M).edgeIds = []
    rcases hq : (vertexClearLoop M.vertIds.length M).edgeIds with _ | ⟨e, rest⟩
    · rfl
    · have he : e ∈ (vertexClearLoop M.vertIds.length M).edgeIds := by
        rw [hq]
        exact List.mem_cons_self e rest
      have hlv := (hinv2.endpoints_live e he).1
      rw [hnil] at hlv
      simp at hlv
  exact ⟨hcount, hempty, hedge, hnoop (vertexContainerClear M) hnil, hnoop M⟩

/-- C6 witness: clearing the concrete two-vertex, one-edge mesh. -/
theorem C6_clear_idempotent_witness :
    vertexCount (vertexContainerClear mesh2) = 0 ∧
    vertexContainerEmpty (vertexContainerClear mesh2) = true ∧
    (vertexContainerClear mesh2).edgeIds = [] ∧
    vertexContainerClear (vertexContainerClear mesh2) = vertexContainerClear mesh2 ∧
    (mesh2.vertIds = [] → vertexContainerClear mesh2 = mesh2) :=
  C6_clear_idempotent mesh2_inv

/-- C7: `emplace_back` on the vertex container constructs a new vertex
whose index equals the container's size before the call, appends it to the
container, and returns a handle to it; the returned vertex has zero
incident edges (empty incidence list, no head edge) and its incidence
list's owning-vertex reference points back at the new vertex. -/
theorem C7_emplace_back (M : BrepMesh) :
    ((vertexEmplace M).1.vertRec (vertexEmplace M).2).m_index = M.vertIds.length ∧
    (vertexEmplace M).1.vertIds = M.vertIds ++ [(vertexEmplace M).2] ∧
    ((vertexEmplace M).1.vertRec (vertexEmplace M).2).m_edges.m_size = 0 ∧
    ((vertexEmplace M).1.vertRec (vertexEmplace M).2).m_edges.m_head = none ∧
    (((vertexEmplace M).1.vertRec (vertexEmplace M).2).m_edges).isEmptyList = true ∧
    ((vertexEmplace M).1.vertRec (vertexEmplace M).2).m_edges.m_vertex =
      (vertexEmplace M).2 := by
  have hrec : (vertexEmplace M).1.vertRec (vertexEmplace M).2 =
      { m_index := (M.vertIds ++ [M.nextVid]).length - 1,
        m_edges := { m_vertex := M.nextVid, m_head := none, m_size := 0 } } := by
    show updV M.vertRec M.nextVid _ M.nextVid = _
    rw [updV_same]
  refine ⟨?_, rfl, ?_, ?_, ?_, ?_⟩ <;> rw [hrec] <;> first
  | rfl
  | simp
